import Mathlib

/-!
Verification of the `site-data` insights pipeline.

Shallow embedding of the repository's core logic:
* `src/lib/rateLimit.ts` — fixed-window rate limiter (`checkRateLimit`);
* `src/lib/similarweb.ts` — response parsing (`extractArray`, `parseSeries`,
  `parseChannels`, `normalizeShare`, `latestValue`), query-range computation
  (`getMonthlyRange`), aggregation fold (`fetchSimilarwebInsights`'s settle
  handling), and display helpers (`normalizePercent`);
* `src/lib/domain.ts` — domain normalization (`normalizeDomain`).

JavaScript numbers are modelled as rationals (`ℚ`), timestamps as integers
(milliseconds, `ℤ`), strings used only as opaque keys/labels as `String`, and
the character-level string processing of `domain.ts` over `List Char`.
-/

/-! ### Rate limiter (src/lib/rateLimit.ts) -/

/-- An entry of the in-memory rate-limit store: request counter and the
timestamp at which the window resets. -/
structure RateLimitEntry where
  count : ℤ
  resetAt : ℤ
deriving DecidableEq

/-- The rate-limit store, a map from caller key to entry; modelled as an
association list (JavaScript `Map` iteration order is insertion order). -/
abbrev RateStore := List (String × RateLimitEntry)

/-- `Map.get`: the value stored for `key`, if any (first occurrence wins;
a `Map` holds each key at most once). -/
def storeGet (s : RateStore) (key : String) : Option RateLimitEntry :=
  match s with
  | [] => none
  | (k, e) :: rest => if k = key then some e else storeGet rest key

/-- `Map.set`: replace the value at `key` in place, or append a fresh binding. -/
def storeSet (s : RateStore) (key : String) (e : RateLimitEntry) : RateStore :=
  match s with
  | [] => [(key, e)]
  | (k, e0) :: rest =>
    if k = key then (k, e) :: rest else (k, e0) :: storeSet rest key e

/-- Result record of `checkRateLimit`. -/
structure RateLimitResult where
  allowed : Bool
  remaining : ℤ
  resetAt : ℤ
deriving DecidableEq

/-- `checkRateLimit` from `src/lib/rateLimit.ts`, with the ambient `Date.now()`
passed explicitly as `now` and the module-level store threaded through. -/
def checkRateLimit (store : RateStore) (key : String) (limit windowMs now : ℤ) :
    RateLimitResult × RateStore :=
  match storeGet store key with
  | none =>
    let resetAt := now + windowMs
    (⟨true, limit - 1, resetAt⟩, storeSet store key ⟨1, resetAt⟩)
  | some entry =>
    if entry.resetAt ≤ now then
      let resetAt := now + windowMs
      (⟨true, limit - 1, resetAt⟩, storeSet store key ⟨1, resetAt⟩)
    else if limit ≤ entry.count then
      (⟨false, 0, entry.resetAt⟩, store)
    else
      (⟨true, limit - (entry.count + 1), entry.resetAt⟩,
        storeSet store key ⟨entry.count + 1, entry.resetAt⟩)

/-- `cleanupRateLimit` from `src/lib/rateLimit.ts`: drop expired entries. -/
def cleanupRateLimit (store : RateStore) (now : ℤ) : RateStore :=
  store.filter (fun kv => decide (now < kv.2.resetAt))

theorem storeGet_storeSet_self (s : RateStore) (key : String) (e : RateLimitEntry) :
    storeGet (storeSet s key e) key = some e := by
  induction s with
  | nil => simp [storeGet, storeSet]
  | cons kv rest ih =>
    obtain ⟨k, e0⟩ := kv
    by_cases h : k = key <;> simp [storeGet, storeSet, h, ih]

theorem checkRateLimit_fresh (store : RateStore) (key : String)
    (limit windowMs now : ℤ) (h : storeGet store key = none) :
    checkRateLimit store key limit windowMs now =
      (⟨true, limit - 1, now + windowMs⟩,
        storeSet store key ⟨1, now + windowMs⟩) := by
  simp [checkRateLimit, h]

theorem checkRateLimit_expired (store : RateStore) (key : String)
    (limit windowMs now : ℤ) (e : RateLimitEntry)
    (h : storeGet store key = some e) (hexp : e.resetAt ≤ now) :
    checkRateLimit store key limit windowMs now =
      (⟨true, limit - 1, now + windowMs⟩,
        storeSet store key ⟨1, now + windowMs⟩) := by
  simp [checkRateLimit, h, hexp]

theorem checkRateLimit_denied (store : RateStore) (key : String)
    (limit windowMs now : ℤ) (e : RateLimitEntry)
    (h : storeGet store key = some e) (hlive : now < e.resetAt)
    (hcount : limit ≤ e.count) :
    checkRateLimit store key limit windowMs now =
      (⟨false, 0, e.resetAt⟩, store) := by
  simp [checkRateLimit, h, not_le.mpr hlive, hcount]

theorem checkRateLimit_increment (store : RateStore) (key : String)
    (limit windowMs now : ℤ) (e : RateLimitEntry)
    (h : storeGet store key = some e) (hlive : now < e.resetAt)
    (hcount : e.count < limit) :
    checkRateLimit store key limit windowMs now =
      (⟨true, limit - (e.count + 1), e.resetAt⟩,
        storeSet store key ⟨e.count + 1, e.resetAt⟩) := by
  simp [checkRateLimit, h, not_le.mpr hlive, not_le.mpr hcount]

/-! ### Share and percent normalization (src/lib/similarweb.ts) -/

/-- `normalizeShare` from `src/lib/similarweb.ts`. -/
def normalizeShare (value : ℚ) : ℚ :=
  if 1 < value then value / 100 else value

/-- `normalizePercent` from `src/lib/similarweb.ts` (the display-stage
conversion); `undefined` is modelled as `none`. -/
def normalizePercent (value : Option ℚ) : Option ℚ :=
  match value with
  | none => none
  | some v => some (if 1 < v then v else v * 100)

/-- C6: whenever `checkRateLimit` denies a request (the key's entry exists, is
unexpired, and its count is at least the limit), it returns `allowed = false`
with `resetAt` equal to the entry's existing `resetAt`, and the stored state is
left unchanged. -/
theorem c6_denied_no_mutation (store : RateStore) (key : String)
    (limit windowMs now : ℤ) (e : RateLimitEntry)
    (hget : storeGet store key = some e) (hlive : now < e.resetAt)
    (hcount : limit ≤ e.count) :
    (checkRateLimit store key limit windowMs now).1.allowed = false ∧
    (checkRateLimit store key limit windowMs now).1.resetAt = e.resetAt ∧
    (checkRateLimit store key limit windowMs now).2 = store := by
  rw [checkRateLimit_denied store key limit windowMs now e hget hlive hcount]
  exact ⟨rfl, rfl, rfl⟩

/-- Witness for C6 at a concrete store and clock. -/
theorem c6_denied_no_mutation_witness :
    (checkRateLimit [("k", ⟨3, 1000⟩)] "k" 3 1000 500).1.allowed = false ∧
    (checkRateLimit [("k", ⟨3, 1000⟩)] "k" 3 1000 500).1.resetAt = 1000 ∧
    (checkRateLimit [("k", ⟨3, 1000⟩)] "k" 3 1000 500).2 = [("k", ⟨3, 1000⟩)] :=
  c6_denied_no_mutation [("k", ⟨3, 1000⟩)] "k" 3 1000 500 ⟨3, 1000⟩
    (by decide) (by decide) (by decide)

/-- C5: for a fresh key with `limit = 3`, `windowMs = 1000`, three consecutive
checks within the window return `allowed = true` with remaining 2, 1, 0; a
fourth check within the window returns `allowed = false`; and the first check
at or after the reset time returns `allowed = true` with `remaining = 2`. -/
theorem c5_rate_window (store : RateStore) (key : String) (t0 t1 t2 t3 t4 : ℤ)
    (hfresh : storeGet store key = none)
    (h1 : t1 < t0 + 1000) (h2 : t2 < t0 + 1000) (h3 : t3 < t0 + 1000)
    (h4 : t0 + 1000 ≤ t4) :
    (checkRateLimit store key 3 1000 t0).1 = ⟨true, 2, t0 + 1000⟩ ∧
    (checkRateLimit (checkRateLimit store key 3 1000 t0).2 key 3 1000 t1).1 =
      ⟨true, 1, t0 + 1000⟩ ∧
    (checkRateLimit (checkRateLimit (checkRateLimit store key 3 1000 t0).2
        key 3 1000 t1).2 key 3 1000 t2).1 = ⟨true, 0, t0 + 1000⟩ ∧
    (checkRateLimit (checkRateLimit (checkRateLimit (checkRateLimit store
        key 3 1000 t0).2 key 3 1000 t1).2 key 3 1000 t2).2 key 3 1000 t3).1 =
      ⟨false, 0, t0 + 1000⟩ ∧
    (checkRateLimit (checkRateLimit (checkRateLimit (checkRateLimit
        (checkRateLimit store key 3 1000 t0).2 key 3 1000 t1).2
        key 3 1000 t2).2 key 3 1000 t3).2 key 3 1000 t4).1 =
      ⟨true, 2, t4 + 1000⟩ := by
  rw [checkRateLimit_fresh store key 3 1000 t0 hfresh]
  have g1 : storeGet (storeSet store key ⟨1, t0 + 1000⟩) key = some ⟨1, t0 + 1000⟩ :=
    storeGet_storeSet_self ..
  rw [checkRateLimit_increment _ key 3 1000 t1 ⟨1, t0 + 1000⟩ g1 h1 (by norm_num)]
  have g2 : storeGet (storeSet (storeSet store key ⟨1, t0 + 1000⟩) key
      ⟨1 + 1, t0 + 1000⟩) key = some ⟨1 + 1, t0 + 1000⟩ := storeGet_storeSet_self ..
  rw [checkRateLimit_increment _ key 3 1000 t2 ⟨1 + 1, t0 + 1000⟩ g2 h2 (by norm_num)]
  have g3 : storeGet (storeSet (storeSet (storeSet store key ⟨1, t0 + 1000⟩) key
      ⟨1 + 1, t0 + 1000⟩) key ⟨1 + 1 + 1, t0 + 1000⟩) key =
      some ⟨1 + 1 + 1, t0 + 1000⟩ := storeGet_storeSet_self ..
  rw [checkRateLimit_denied _ key 3 1000 t3 ⟨1 + 1 + 1, t0 + 1000⟩ g3 h3 (by norm_num)]
  rw [checkRateLimit_expired _ key 3 1000 t4 ⟨1 + 1 + 1, t0 + 1000⟩ g3 h4]
  refine ⟨rfl, ?_, ?_, rfl, rfl⟩ <;> norm_num

/-- Witness for C5 at a concrete schedule of calls. -/
theorem c5_rate_window_witness :
    (checkRateLimit [] "ip" 3 1000 0).1 = ⟨true, 2, 1000⟩ ∧
    (checkRateLimit (checkRateLimit [] "ip" 3 1000 0).2 "ip" 3 1000 1).1 =
      ⟨true, 1, 1000⟩ ∧
    (checkRateLimit (checkRateLimit (checkRateLimit [] "ip" 3 1000 0).2
        "ip" 3 1000 1).2 "ip" 3 1000 2).1 = ⟨true, 0, 1000⟩ ∧
    (checkRateLimit (checkRateLimit (checkRateLimit (checkRateLimit []
        "ip" 3 1000 0).2 "ip" 3 1000 1).2 "ip" 3 1000 2).2 "ip" 3 1000 3).1 =
      ⟨false, 0, 1000⟩ ∧
    (checkRateLimit (checkRateLimit (checkRateLimit (checkRateLimit
        (checkRateLimit [] "ip" 3 1000 0).2 "ip" 3 1000 1).2
        "ip" 3 1000 2).2 "ip" 3 1000 3).2 "ip" 3 1000 1000).1 =
      ⟨true, 2, 2000⟩ := by
  have h := c5_rate_window [] "ip" 0 1 2 3 1000 (by decide)
    (by decide) (by decide) (by decide) (by decide)
  norm_num at h ⊢
  exact h

/-- C7: `normalizeShare` divides by 100 exactly when the value exceeds 1 and
leaves values at most 1 unchanged; in particular 55 becomes 0.55 and 0.2 is
unchanged. -/
theorem c7_normalize_share :
    (∀ v : ℚ, (1 < v → normalizeShare v = v / 100) ∧
      (v ≤ 1 → normalizeShare v = v)) ∧
    normalizeShare 55 = 55 / 100 ∧ normalizeShare (2 / 10) = 2 / 10 := by
  refine ⟨fun v => ⟨fun h => if_pos h, fun h => if_neg (not_lt.mpr h)⟩, ?_, ?_⟩
  · exact if_pos (by norm_num)
  · exact if_neg (by norm_num)

/-- Witness for C7 at the value 55. -/
theorem c7_normalize_share_witness :
    (1 : ℚ) < 55 ∧ normalizeShare 55 = 55 / 100 :=
  ⟨by norm_num, (c7_normalize_share.1 55).1 (by norm_num)⟩

/-- C10: for percentage-scale values `1 < v ≤ 100`, the parse-stage conversion
(`normalizeShare`) and the display-stage conversion (`normalizePercent`)
round-trip, so a share parsed from a percentage is not double-converted. -/
theorem c10_share_percent_roundtrip (v : ℚ) (h1 : 1 < v) (h2 : v ≤ 100) :
    normalizePercent (some (normalizeShare v)) = some v := by
  have hle : v / 100 ≤ 1 := by
    rw [div_le_one (by norm_num)]
    linarith
  simp only [normalizeShare, if_pos h1, normalizePercent, if_neg (not_lt.mpr hle)]
  congr 1
  field_simp

/-- Witness for C10 at the value 55. -/
theorem c10_share_percent_roundtrip_witness :
    normalizePercent (some (normalizeShare 55)) = some 55 :=
  c10_share_percent_roundtrip 55 (by norm_num) (by norm_num)

/-! ### Monthly query range (src/lib/similarweb.ts, getMonthlyRange) -/

/-- A JavaScript `Date` restricted to its UTC year and 0-based month, the only
components `getMonthlyRange`/`formatYearMonth` read (the day is pinned to 1). -/
structure YMDate where
  year : ℤ
  month0 : ℤ
deriving DecidableEq

/-- `Date.UTC(year, month, 1)` month normalization: out-of-range months roll
the year (floor division; `/` and `%` on `ℤ` round toward negative infinity
for the positive divisor 12, as JavaScript's calendar arithmetic does). -/
def mkUTCMonth (year month : ℤ) : YMDate :=
  ⟨year + month / 12, month % 12⟩

/-- `date.setUTCMonth(m)` as a functional update. -/
def setUTCMonth (d : YMDate) (m : ℤ) : YMDate :=
  mkUTCMonth d.year m

/-- `String(n).padStart(2, "0")`. -/
def padTwo (n : ℤ) : String :=
  let s := toString n
  if s.length < 2 then "0" ++ s else s

/-- `formatYearMonth` from `src/lib/similarweb.ts`. -/
def formatYearMonth (d : YMDate) : String :=
  toString d.year ++ "-" ++ padTwo (d.month0 + 1)

/-- `getMonthlyRange` from `src/lib/similarweb.ts`; returns the
`(start, end)` pair of formatted year-months. -/
def getMonthlyRange (now : YMDate) : String × String :=
  let anchor0 := mkUTCMonth now.year now.month0
  let anchor := setUTCMonth anchor0 (anchor0.month0 - 1)
  let endD := anchor
  let startD := setUTCMonth anchor (anchor.month0 - 2)
  (formatYearMonth startD, formatYearMonth endD)

/-- C9: `getMonthlyRange` spans exactly the three full calendar months
preceding the current month — the start is the year-month 3 months before
`now` and the end is the month before `now` — and for any date in April the
range is January through March of the same year. -/
theorem c9_monthly_range :
    (∀ y m : ℤ, 0 ≤ m → m < 12 →
      getMonthlyRange ⟨y, m⟩ =
        (formatYearMonth ⟨(y * 12 + m - 3) / 12, (y * 12 + m - 3) % 12⟩,
         formatYearMonth ⟨(y * 12 + m - 1) / 12, (y * 12 + m - 1) % 12⟩)) ∧
    (∀ y : ℤ, getMonthlyRange ⟨y, 3⟩ = (toString y ++ "-01", toString y ++ "-03")) := by
  have key : ∀ y m : ℤ, 0 ≤ m → m < 12 →
      getMonthlyRange ⟨y, m⟩ =
        (formatYearMonth ⟨(y * 12 + m - 3) / 12, (y * 12 + m - 3) % 12⟩,
         formatYearMonth ⟨(y * 12 + m - 1) / 12, (y * 12 + m - 1) % 12⟩) := by
    intro y m h0 h1
    simp only [getMonthlyRange, setUTCMonth, mkUTCMonth, Prod.mk.injEq]
    constructor
    · exact congrArg formatYearMonth (by simp only [YMDate.mk.injEq]; omega)
    · exact congrArg formatYearMonth (by simp only [YMDate.mk.injEq]; omega)
  refine ⟨key, fun y => ?_⟩
  rw [key y 3 (by norm_num) (by norm_num)]
  have e1 : (y * 12 + 3 - 3) / 12 = y := by omega
  have e2 : (y * 12 + 3 - 3) % 12 = 0 := by omega
  have e3 : (y * 12 + 3 - 1) / 12 = y := by omega
  have e4 : (y * 12 + 3 - 1) % 12 = 2 := by omega
  rw [e1, e2, e3, e4]
  simp only [formatYearMonth, Prod.mk.injEq]
  constructor
  · rw [show padTwo (0 + 1) = "01" from by decide, String.append_assoc,
      show ("-" : String) ++ "01" = "-01" from by decide]
  · rw [show padTwo (2 + 1) = "03" from by decide, String.append_assoc,
      show ("-" : String) ++ "03" = "-03" from by decide]

/-- Witness for C9 in April 2024. -/
theorem c9_monthly_range_witness :
    getMonthlyRange ⟨2024, 3⟩ = (toString (2024 : ℤ) ++ "-01", toString (2024 : ℤ) ++ "-03") :=
  c9_monthly_range.2 2024

/-! ### Latest-value extraction (src/lib/similarweb.ts, latestValue) -/

/-- A parsed timeseries point: date label and numeric value. -/
structure TimeseriesPoint where
  date : String
  value : ℚ
deriving DecidableEq

/-- The comparator `(a, b) => a.date.localeCompare(b.date)` as a sort order;
on the zero-padded ASCII date tokens used by the provider, locale comparison
coincides with lexicographic string order. -/
def dateLE (a b : TimeseriesPoint) : Bool := decide (a.date ≤ b.date)

/-- `latestValue` from `src/lib/similarweb.ts`: for a non-empty series,
copy, stable-sort ascending by date label, and take the last point's value. -/
def latestValue (series : List TimeseriesPoint) : Option ℚ :=
  if series.isEmpty then none
  else (series.mergeSort dateLE).getLast?.map TimeseriesPoint.value

theorem pairwise_rel_getLast {α : Type} {R : α → α → Prop} (hrefl : ∀ a, R a a) :
    ∀ (l : List α) (hne : l ≠ []), l.Pairwise R → ∀ x ∈ l, R x (l.getLast hne) := by
  intro l
  induction l with
  | nil => intro hne; exact absurd rfl hne
  | cons a t ih =>
    intro hne hp x hx
    cases t with
    | nil =>
      simp only [List.mem_singleton] at hx
      subst hx
      simpa using hrefl x
    | cons b t2 =>
      rw [List.getLast_cons (by simp : b :: t2 ≠ [])]
      rcases List.mem_cons.mp hx with rfl | hx2
      · exact (List.pairwise_cons.mp hp).1 _ (List.getLast_mem _)
      · exact ih (by simp) (List.pairwise_cons.mp hp).2 x hx2

/-- C8: `latestValue` of a non-empty timeseries is the value of a point whose
date label is greatest under lexicographic order (not the last element in
array order), the empty series yields no value, and on
`[{"2024-02",10},{"2024-01",5}]` it returns 10. -/
theorem c8_latest_value :
    latestValue [] = none ∧
    (∀ series : List TimeseriesPoint, series ≠ [] →
      ∃ p ∈ series, latestValue series = some p.value ∧
        ∀ q ∈ series, q.date ≤ p.date) ∧
    latestValue [⟨"2024-02", 10⟩, ⟨"2024-01", 5⟩] = some 10 := by
  have main : ∀ series : List TimeseriesPoint, series ≠ [] →
      ∃ p ∈ series, latestValue series = some p.value ∧
        ∀ q ∈ series, q.date ≤ p.date := by
    intro series hne
    have hperm : List.Perm (series.mergeSort dateLE) series :=
      List.mergeSort_perm series dateLE
    have hne2 : series.mergeSort dateLE ≠ [] := by
      intro h
      apply hne
      have hlen := hperm.length_eq
      rw [h] at hlen
      exact List.length_eq_zero.mp (by simpa using hlen.symm)
    have htrans : ∀ a b c : TimeseriesPoint,
        dateLE a b = true → dateLE b c = true → dateLE a c = true := by
      intro a b c hab hbc
      simp only [dateLE, decide_eq_true_eq] at *
      exact le_trans hab hbc
    have htotal : ∀ a b : TimeseriesPoint, (dateLE a b || dateLE b a) = true := by
      intro a b
      simp only [dateLE, Bool.or_eq_true, decide_eq_true_eq]
      exact le_total a.date b.date
    have hsorted : (series.mergeSort dateLE).Pairwise (fun a b => dateLE a b = true) := by
      have := List.sorted_mergeSort htrans htotal series
      simpa using this
    refine ⟨(series.mergeSort dateLE).getLast hne2,
      hperm.subset (List.getLast_mem hne2), ?_, ?_⟩
    · have hemp : series.isEmpty = false := List.isEmpty_eq_false.mpr hne
      simp only [latestValue, hemp, Bool.false_eq_true, if_false,
        List.getLast?_eq_getLast _ hne2, Option.map_some']
    · intro q hq
      have := pairwise_rel_getLast (R := fun a b => dateLE a b = true)
        (fun a => by simp [dateLE]) (series.mergeSort dateLE) hne2 hsorted q
        (hperm.mem_iff.mpr hq)
      simpa [dateLE] using this
  refine ⟨by simp [latestValue], main, ?_⟩
  obtain ⟨p, hp, hval, hmax⟩ :=
    main [⟨"2024-02", 10⟩, ⟨"2024-01", 5⟩] (by simp)
  rcases List.mem_cons.mp hp with rfl | hp2
  · exact hval
  · rcases List.mem_singleton.mp hp2 with rfl
    exact absurd (hmax ⟨"2024-02", 10⟩ (by simp))
      (by rw [String.le_iff_toList_le]; decide)

/-- Witness for C8 on the two-point example series. -/
theorem c8_latest_value_witness :
    ∃ p ∈ [TimeseriesPoint.mk "2024-02" 10, TimeseriesPoint.mk "2024-01" 5],
      latestValue [TimeseriesPoint.mk "2024-02" 10, TimeseriesPoint.mk "2024-01" 5] =
        some p.value ∧
      ∀ q ∈ [TimeseriesPoint.mk "2024-02" 10, TimeseriesPoint.mk "2024-01" 5],
        q.date ≤ p.date :=
  c8_latest_value.2.1 _ (by simp)

/-! ### Loosely-structured provider payloads (src/lib/similarweb.ts) -/

/-- A JSON-like value as delivered by the provider. Numbers are rationals;
`undefined` is represented by absence (an `Option` at use sites). Object
fields are listed in insertion order; payload objects hold each key once. -/
inductive Json where
  | null : Json
  | bool (b : Bool) : Json
  | num (q : ℚ) : Json
  | str (s : String) : Json
  | arr (items : List Json) : Json
  | obj (fields : List (String × Json)) : Json

/-- Property access `o[key]` on an object's field list (`undefined` = `none`). -/
def jsonLookup (fields : List (String × Json)) (key : String) : Option Json :=
  match fields with
  | [] => none
  | (k, v) :: rest => if k = key then some v else jsonLookup rest key

/-- Property access `v[key]` on any value: only keyed structures have
(non-index) properties. -/
def Json.getField : Json → String → Option Json
  | .obj fields, key => jsonLookup fields key
  | _, _ => none

/-- JavaScript truthiness of a payload value (`NaN` is not modelled; provider
numbers are finite). -/
def Json.truthy : Json → Bool
  | .null => false
  | .bool b => b
  | .num q => decide (q ≠ 0)
  | .str s => decide (s ≠ "")
  | .arr _ => true
  | .obj _ => true

/-- `typeof v === "object"` (true for `null`, arrays and objects). -/
def Json.isObjectType : Json → Bool
  | .null => true
  | .arr _ => true
  | .obj _ => true
  | _ => false

/-- `Array.isArray` refinement: the element list of an array value. -/
def Json.asArr : Option Json → Option (List Json)
  | some (.arr items) => some items
  | _ => none

mutual

/-- All numeric literals anywhere in a payload satisfy `p`. -/
def Json.allNums (p : ℚ → Bool) : Json → Bool
  | .null => true
  | .bool _ => true
  | .num q => p q
  | .str _ => true
  | .arr items => Json.allNumsList p items
  | .obj fields => Json.allNumsFields p fields

/-- All numeric literals in a list of payloads satisfy `p`. -/
def Json.allNumsList (p : ℚ → Bool) : List Json → Bool
  | [] => true
  | v :: rest => Json.allNums p v && Json.allNumsList p rest

/-- All numeric literals in an object field list satisfy `p`. -/
def Json.allNumsFields (p : ℚ → Bool) : List (String × Json) → Bool
  | [] => true
  | (_, v) :: rest => Json.allNums p v && Json.allNumsFields p rest

end

theorem allNums_of_mem_list {p : ℚ → Bool} {items : List Json} {v : Json}
    (h : Json.allNumsList p items = true) (hv : v ∈ items) :
    Json.allNums p v = true := by
  induction items with
  | nil => cases hv
  | cons w rest ih =>
    rw [Json.allNumsList, Bool.and_eq_true] at h
    rcases List.mem_cons.mp hv with rfl | hv2
    · exact h.1
    · exact ih h.2 hv2

theorem allNums_of_mem_fields {p : ℚ → Bool} {fields : List (String × Json)}
    {kv : String × Json} (h : Json.allNumsFields p fields = true)
    (hv : kv ∈ fields) : Json.allNums p kv.2 = true := by
  induction fields with
  | nil => cases hv
  | cons w rest ih =>
    obtain ⟨k, v⟩ := w
    rw [Json.allNumsFields, Bool.and_eq_true] at h
    rcases List.mem_cons.mp hv with rfl | hv2
    · exact h.1
    · exact ih h.2 hv2

theorem allNums_of_lookup {p : ℚ → Bool} {fields : List (String × Json)}
    {key : String} {v : Json} (h : Json.allNumsFields p fields = true)
    (hv : jsonLookup fields key = some v) : Json.allNums p v = true := by
  induction fields with
  | nil => simp [jsonLookup] at hv
  | cons w rest ih =>
    obtain ⟨k, v0⟩ := w
    rw [Json.allNumsFields, Bool.and_eq_true] at h
    rw [jsonLookup] at hv
    by_cases hk : k = key
    · rw [if_pos hk] at hv
      cases hv
      exact h.1
    · rw [if_neg hk] at hv
      exact ih h.2 hv

/-- One guarded nested probe of `extractArray`: if the candidate value is a
truthy keyed structure, look up `key` in it and accept an array result. Both
guarded blocks of the source (`nestedData[key]` and `value.data`) have this
shape. -/
def probeNested (cand : Option Json) (key : String) : Option (List Json) :=
  match cand with
  | some nd => if nd.truthy && nd.isObjectType then Json.asArr (nd.getField key) else none
  | none => none

/-- `extractArray` from `src/lib/similarweb.ts`: probe the payload for an
array, mirroring the source's sequence of checks (payload itself, `raw[key]`,
`raw.data[key]`, `raw[key].data`). -/
def extractArray (raw : Json) (key : String) : Option (List Json) :=
  if raw.truthy = false then none
  else
    match raw with
    | .arr items => some items
    | .obj fields =>
      match Json.asArr (jsonLookup fields key) with
      | some items => some items
      | none =>
        match probeNested (jsonLookup fields "data") key with
        | some items => some items
        | none => probeNested (jsonLookup fields key) "data"
    | _ => none

/-- One probe as the spec describes it: the candidate must be a keyed
structure and the looked-up value an array. -/
def specProbe (cand : Option Json) (key : String) : Option (List Json) :=
  match cand with
  | some (.obj fs) => Json.asArr (jsonLookup fs key)
  | _ => none

/-- Modelled from the spec (refinement target for C4): "accept the payload
directly if it is already a sequence; otherwise, if it is a keyed structure,
look for the candidate key at the top level, then inside a nested `data`
field, then inside a nested `data` field one level under the candidate key
itself", returning the first array found, and not-found otherwise. -/
def extractArraySpec (raw : Json) (key : String) : Option (List Json) :=
  match raw with
  | .arr items => some items
  | .obj fields =>
    Json.asArr (jsonLookup fields key) <|>
      specProbe (jsonLookup fields "data") key <|>
      specProbe (jsonLookup fields key) "data"
  | _ => none

theorem probeNested_eq_specProbe (cand : Option Json) (key : String) :
    probeNested cand key = specProbe cand key := by
  rcases cand with _ | nd
  · rfl
  · cases nd with
    | null => rfl
    | bool b => simp [probeNested, specProbe, Json.isObjectType]
    | num q => simp [probeNested, specProbe, Json.isObjectType]
    | str s => simp [probeNested, specProbe, Json.isObjectType]
    | arr items => rfl
    | obj fs => rfl

theorem extractArray_eq_spec (raw : Json) (key : String) :
    extractArray raw key = extractArraySpec raw key := by
  cases raw with
  | null => rfl
  | bool b => cases b <;> rfl
  | num q => simp [extractArray, extractArraySpec, ite_self]
  | str s => simp [extractArray, extractArraySpec, ite_self]
  | arr items => rfl
  | obj fields =>
    rw [extractArray, extractArraySpec]
    rcases h1 : Json.asArr (jsonLookup fields key) with _ | its
    · rcases h2 : probeNested (jsonLookup fields "data") key with _ | its2
      · rw [probeNested_eq_specProbe] at h2
        simp [h1, h2, probeNested_eq_specProbe, Json.truthy]
      · rw [probeNested_eq_specProbe] at h2
        simp [h1, h2, Json.truthy]
    · simp [h1, Json.truthy]

/-- A point as validated by the zod schema
`{date: z.string(), value: z.number().nullable()}`. -/
structure RawPoint where
  date : String
  value : Option ℚ
deriving DecidableEq

/-- `pointSchema.safeParse` on one element: an object whose `date` is a string
and whose `value` is a number or an explicit `null`. -/
def parsePoint (v : Json) : Option RawPoint :=
  match v with
  | .obj fields =>
    match jsonLookup fields "date", jsonLookup fields "value" with
    | some (.str d), some (.num q) => some ⟨d, some q⟩
    | some (.str d), some .null => some ⟨d, none⟩
    | _, _ => none
  | _ => none

/-- `z.array(schema).safeParse`: succeeds iff every element parses. -/
def zodArray {β : Type} (f : Json → Option β) : List Json → Option (List β)
  | [] => some []
  | v :: rest =>
    match f v, zodArray f rest with
    | some b, some bs => some (b :: bs)
    | _, _ => none

/-- The key loop of `parseSeries`: first key whose extracted candidate parses
to at least one non-null point wins. -/
def parseSeriesGo (raw : Json) : List String → Option (List TimeseriesPoint)
  | [] => none
  | key :: rest =>
    match extractArray raw key with
    | none => parseSeriesGo raw rest
    | some candidate =>
      match zodArray parsePoint candidate with
      | none => parseSeriesGo raw rest
      | some rawPoints =>
        let points := rawPoints.filterMap
          (fun p => p.value.map (fun q => TimeseriesPoint.mk p.date q))
        if points.isEmpty then parseSeriesGo raw rest else some points

/-- `parseSeries` from `src/lib/similarweb.ts`. -/
def parseSeries (raw : Json) (keys : List String) : Option (List TimeseriesPoint) :=
  parseSeriesGo raw (if keys.isEmpty then ["data"] else keys)

/-- C4: `extractArray` accepts an array payload directly and otherwise probes
an object payload for the candidate key at top level, then under a nested
`data` field, then for a `data` field under the candidate key, in that order,
returning the first array found and not-found when all fail; in particular the
payload `{data:{bounce_rate:[{date:"2024-01",value:42}]}}` with key list
`["bounce_rate","data"]` parses to exactly one point with value 42. -/
theorem c4_extract_array_fallback :
    (∀ (raw : Json) (key : String), extractArray raw key = extractArraySpec raw key) ∧
    parseSeries
      (.obj [("data", .obj [("bounce_rate",
        .arr [.obj [("date", .str "2024-01"), ("value", .num 42)]])])])
      ["bounce_rate", "data"] = some [⟨"2024-01", 42⟩] :=
  ⟨extractArray_eq_spec, by decide⟩

/-! ### Channel parsing (src/lib/similarweb.ts, parseChannels) -/

/-- A channel share: channel name and (normalized) share of traffic. -/
structure ChannelShare where
  channel : String
  share : ℚ
deriving DecidableEq

/-- An element validated by `channelItemSchema` (every field optional, but a
present field must have the right type). -/
structure ChannelItem where
  channel : Option String
  source : Option String
  name : Option String
  share : Option ℚ
  value : Option ℚ
deriving DecidableEq

/-- `z.string().optional()` on a field: absent is fine, a present value must
be a string. -/
def optStrField (fields : List (String × Json)) (key : String) :
    Option (Option String) :=
  match jsonLookup fields key with
  | none => some none
  | some (.str s) => some (some s)
  | some _ => none

/-- `z.number().optional()` on a field. -/
def optNumField (fields : List (String × Json)) (key : String) :
    Option (Option ℚ) :=
  match jsonLookup fields key with
  | none => some none
  | some (.num q) => some (some q)
  | some _ => none

/-- `channelItemSchema.safeParse` on one element: every declared field must
individually validate. -/
def parseChannelItem (v : Json) : Option ChannelItem :=
  match v with
  | .obj fields =>
    match optStrField fields "channel", optStrField fields "source",
        optStrField fields "name", optNumField fields "share",
        optNumField fields "value" with
    | some c, some s, some n, some sh, some vl => some ⟨c, s, n, sh, vl⟩
    | _, _, _, _, _ => none
  | _ => none

/-- `x || y` on optional strings: first truthy (non-empty) candidate. -/
def firstTruthyStr (a b : Option String) : Option String :=
  match a with
  | some s => if s = "" then b else some s
  | none => b

/-- Three-way `||` chain over the label candidates. -/
def firstTruthyLabel (a b c : Option String) : Option String :=
  firstTruthyStr a (firstTruthyStr b c)

/-- Map one parsed channel item to a `ChannelShare` as the source's `.map`
callback does (`null` result modelled as `none`, filtered out afterwards). -/
def channelOfItem (item : ChannelItem) : Option ChannelShare :=
  let label := firstTruthyLabel item.channel item.source item.name
  let share := match item.share with
    | some q => some q
    | none => item.value
  match label, share with
  | some l, some q => if l = "" then none else some ⟨l, normalizeShare q⟩
  | _, _ => none

/-- One `Object.entries` pair mapped to a channel share: keep numeric values
only (`[key, value] => ({channel: key, share: normalizeShare(value)})`). -/
def channelFromEntry (kv : String × Json) : Option ChannelShare :=
  match kv.2 with
  | .num q => some (ChannelShare.mk kv.1 (normalizeShare q))
  | _ => none

/-- The two accepted shapes of the channel payload body: a sequence of channel
items, or a flat mapping from channel name to numeric value. -/
def channelsFromData (data : Json) : Option (List ChannelShare) :=
  match data with
  | .arr items =>
    match zodArray parseChannelItem items with
    | none => none
    | some parsedItems =>
      if (parsedItems.filterMap channelOfItem).isEmpty then none
      else some (parsedItems.filterMap channelOfItem)
  | .obj dfields =>
    if (dfields.filterMap channelFromEntry).isEmpty then none
    else some (dfields.filterMap channelFromEntry)
  | _ => none

/-- `parseChannels` from `src/lib/similarweb.ts`: reject non-object payloads,
select `raw.data ?? raw` as the body, and parse either accepted shape. -/
def parseChannels (raw : Json) : Option (List ChannelShare) :=
  if !raw.truthy || !raw.isObjectType then none
  else
    channelsFromData
      (match raw with
        | .obj fields =>
          match jsonLookup fields "data" with
          | some .null => raw
          | some v => v
          | none => raw
        | _ => raw)

theorem zodArray_mem {β : Type} {f : Json → Option β} :
    ∀ {items : List Json} {bs : List β}, zodArray f items = some bs →
      ∀ {b : β}, b ∈ bs → ∃ v ∈ items, f v = some b := by
  intro items
  induction items with
  | nil =>
    intro bs h b hb
    rw [zodArray] at h
    cases h
    cases hb
  | cons v rest ih =>
    intro bs h b hb
    rw [zodArray] at h
    rcases hf : f v with _ | b0 <;> rw [hf] at h
    · cases h
    · rcases hz : zodArray f rest with _ | bs0 <;> rw [hz] at h
      · cases h
      · cases h
        rcases List.mem_cons.mp hb with rfl | hb2
        · exact ⟨v, List.mem_cons_self .., hf⟩
        · obtain ⟨w, hw, hfw⟩ := ih hz hb2
          exact ⟨w, List.mem_cons_of_mem _ hw, hfw⟩

theorem optNumField_some {fields : List (String × Json)} {key : String}
    {q : ℚ} (h : optNumField fields key = some (some q)) :
    jsonLookup fields key = some (.num q) := by
  rw [optNumField] at h
  rcases hl : jsonLookup fields key with _ | v <;> rw [hl] at h
  · cases h
  · cases v <;> simp_all

theorem channelOfItem_share {item : ChannelItem} {c : ChannelShare}
    (h : channelOfItem item = some c) :
    ∃ q, (item.share = some q ∨ item.value = some q) ∧
      c.share = normalizeShare q := by
  rw [channelOfItem] at h
  rcases hL : firstTruthyLabel item.channel item.source item.name with _ | l <;>
    rw [hL] at h
  · rcases hsh : item.share with _ | q <;> rw [hsh] at h
    · rcases hv : item.value with _ | q <;> rw [hv] at h <;> simp at h
    · simp at h
  · rcases hsh : item.share with _ | q <;> rw [hsh] at h
    · rcases hv : item.value with _ | q <;> rw [hv] at h
      · simp at h
      · by_cases hl : l = "" <;> simp only [hl, reduceIte] at h
        · cases h
        · rw [Option.some_inj] at h
          exact ⟨q, Or.inr rfl, by rw [← h]⟩
    · by_cases hl : l = "" <;> simp only [hl, reduceIte] at h
      · cases h
      · rw [Option.some_inj] at h
        exact ⟨q, Or.inl rfl, by rw [← h]⟩

theorem parseChannelItem_nums {j : Json} {item : ChannelItem}
    (h : parseChannelItem j = some item) {q : ℚ}
    (hq : item.share = some q ∨ item.value = some q)
    {p : ℚ → Bool} (hj : Json.allNums p j = true) : p q = true := by
  cases j <;> simp only [parseChannelItem] at h <;>
    try exact Option.noConfusion h
  rename_i fields
  rcases h1 : optStrField fields "channel" with _ | c0 <;> rw [h1] at h
  · simp at h
  rcases h2 : optStrField fields "source" with _ | s0 <;> rw [h2] at h
  · simp at h
  rcases h3 : optStrField fields "name" with _ | n0 <;> rw [h3] at h
  · simp at h
  rcases h4 : optNumField fields "share" with _ | sh0 <;> rw [h4] at h
  · simp at h
  rcases h5 : optNumField fields "value" with _ | vl0 <;> rw [h5] at h
  · simp at h
  have h6 : ChannelItem.mk c0 s0 n0 sh0 vl0 = item := Option.some_inj.mp h
  rw [Json.allNums] at hj
  rcases hq with hq | hq
  · have hsh : sh0 = some q := by rw [← h6] at hq; exact hq
    have := allNums_of_lookup hj (optNumField_some (hsh ▸ h4))
    rwa [Json.allNums] at this
  · have hvl : vl0 = some q := by rw [← h6] at hq; exact hq
    have := allNums_of_lookup hj (optNumField_some (hvl ▸ h5))
    rwa [Json.allNums] at this

theorem normalizeShare_unit {q : ℚ} (h0 : 0 ≤ q) (h1 : q ≤ 100) :
    0 ≤ normalizeShare q ∧ normalizeShare q ≤ 1 := by
  rw [normalizeShare]
  split
  · constructor
    · positivity
    · rw [div_le_one (by norm_num)]; exact h1
  · exact ⟨h0, le_of_not_lt (by assumption)⟩

/-- The provider's numeric convention assumed by the share-normalization rule:
values are percentages in [0,100] or fractions in [0,1]. -/
def percentRangeBound (q : ℚ) : Bool := decide (0 ≤ q ∧ q ≤ 100)

theorem channelsFromData_shares {data : Json} {cs : List ChannelShare}
    {p : ℚ → Bool} (h : channelsFromData data = some cs)
    (hnums : Json.allNums p data = true) :
    ∀ c ∈ cs, ∃ q, p q = true ∧ c.share = normalizeShare q := by
  intro c hc
  cases data <;> simp only [channelsFromData] at h <;>
    try exact Option.noConfusion h
  case arr items =>
    rcases hz : zodArray parseChannelItem items with _ | parsedItems <;> rw [hz] at h
    · exact Option.noConfusion h
    · have h2 : (if (parsedItems.filterMap channelOfItem).isEmpty then none
          else some (parsedItems.filterMap channelOfItem)) = some cs := h
      split at h2
      · exact Option.noConfusion h2
      · rw [← Option.some_inj.mp h2] at hc
        obtain ⟨item, hitem, hco⟩ := List.mem_filterMap.mp hc
        obtain ⟨q, hqsrc, hshare⟩ := channelOfItem_share hco
        obtain ⟨j, hj, hpj⟩ := zodArray_mem hz hitem
        refine ⟨q, ?_, hshare⟩
        have hja : Json.allNums p j = true := by
          rw [Json.allNums] at hnums
          exact allNums_of_mem_list hnums hj
        exact parseChannelItem_nums hpj hqsrc hja
  case obj dfields =>
    split at h
    · exact Option.noConfusion h
    · rw [← Option.some_inj.mp h] at hc
      obtain ⟨kv, hkv, hmk⟩ := List.mem_filterMap.mp hc
      rw [channelFromEntry] at hmk
      rcases hv : kv.2 with _ | _ | q | _ | _ | _ <;> rw [hv] at hmk <;>
        try exact Option.noConfusion hmk
      refine ⟨q, ?_, by rw [← Option.some_inj.mp hmk]⟩
      have hka : Json.allNums p kv.2 = true := by
        rw [Json.allNums] at hnums
        exact allNums_of_mem_fields hnums hkv
      rw [hv, Json.allNums] at hka
      exact hka

/-- C2 counterexample: a channel payload that `parseChannels` accepts whose
normalized share lies outside [0,1] — a raw share of 150 normalizes to 3/2. -/
theorem c2_share_range_counterexample :
    parseChannels (.arr [.obj [("channel", .str "direct"), ("share", .num 150)]]) =
      some [⟨"direct", 3 / 2⟩] ∧ ¬(((3 : ℚ) / 2) ≤ 1) := by
  refine ⟨?_, by norm_num⟩
  rw [show parseChannels
      (.arr [.obj [("channel", .str "direct"), ("share", .num 150)]]) =
      some [⟨"direct", normalizeShare 150⟩] from rfl]
  norm_num [normalizeShare]

/-- C2 (amended): for every channel payload accepted by `parseChannels` whose
numeric values all lie in [0,100] (the provider's percentage-or-fraction
convention), every returned share lies in [0,1]. -/
theorem c2_share_range_amended (raw : Json) (cs : List ChannelShare)
    (hparse : parseChannels raw = some cs)
    (hbound : Json.allNums percentRangeBound raw = true) :
    ∀ c ∈ cs, 0 ≤ c.share ∧ c.share ≤ 1 := by
  have hdata : ∃ data, channelsFromData data = some cs ∧
      Json.allNums percentRangeBound data = true := by
    cases raw with
    | null => simp [parseChannels, Json.truthy] at hparse
    | bool b => simp [parseChannels, Json.isObjectType] at hparse
    | num q => simp [parseChannels, Json.isObjectType] at hparse
    | str s => simp [parseChannels, Json.isObjectType] at hparse
    | arr items =>
      refine ⟨.arr items, ?_, hbound⟩
      simpa [parseChannels, Json.truthy, Json.isObjectType] using hparse
    | obj fields =>
      rcases hd : jsonLookup fields "data" with _ | v
      · refine ⟨.obj fields, ?_, hbound⟩
        simpa [parseChannels, Json.truthy, Json.isObjectType, hd] using hparse
      · have hnums : Json.allNums percentRangeBound v = true := by
          rw [Json.allNums] at hbound
          exact allNums_of_lookup hbound hd
        cases v with
        | null =>
          refine ⟨.obj fields, ?_, hbound⟩
          simpa [parseChannels, Json.truthy, Json.isObjectType, hd] using hparse
        | bool b =>
          exact ⟨.bool b,
            by simpa [parseChannels, Json.truthy, Json.isObjectType, hd] using hparse,
            hnums⟩
        | num q =>
          exact ⟨.num q,
            by simpa [parseChannels, Json.truthy, Json.isObjectType, hd] using hparse,
            hnums⟩
        | str s =>
          exact ⟨.str s,
            by simpa [parseChannels, Json.truthy, Json.isObjectType, hd] using hparse,
            hnums⟩
        | arr items =>
          exact ⟨.arr items,
            by simpa [parseChannels, Json.truthy, Json.isObjectType, hd] using hparse,
            hnums⟩
        | obj dfields =>
          exact ⟨.obj dfields,
            by simpa [parseChannels, Json.truthy, Json.isObjectType, hd] using hparse,
            hnums⟩
  obtain ⟨data, hcd, hnums⟩ := hdata
  intro c hc
  obtain ⟨q, hpq, hshare⟩ := channelsFromData_shares hcd hnums c hc
  rw [hshare]
  have hb : 0 ≤ q ∧ q ≤ 100 := by simpa [percentRangeBound] using hpq
  exact normalizeShare_unit hb.1 hb.2

/-- Witness for the amended C2 on a concrete percentage payload. -/
theorem c2_share_range_amended_witness :
    0 ≤ (ChannelShare.mk "direct" (11 / 20)).share ∧
      (ChannelShare.mk "direct" (11 / 20)).share ≤ 1 :=
  c2_share_range_amended
    (.arr [.obj [("channel", .str "direct"), ("share", .num 55)]]) _
    (by
      rw [show parseChannels
          (.arr [.obj [("channel", .str "direct"), ("share", .num 55)]]) =
          some [⟨"direct", normalizeShare 55⟩] from rfl])
    (by decide)
    (ChannelShare.mk "direct" (11 / 20)) (by norm_num [normalizeShare])

/-! ### Aggregation fold (src/lib/similarweb.ts, fetchSimilarwebInsights) -/

/-- A settled provider call as delivered by `Promise.allSettled`: rejected, or
fulfilled with a JSON payload. The network layer (URLs, timeout, credential
handling) is outside the embedding; what is modelled is the deterministic fold
over the five settled outcomes. -/
inductive Settled where
  | rejected : Settled
  | fulfilled (payload : Json) : Settled

/-- Whether a settled call failed. -/
def Settled.isRejected : Settled → Bool
  | .rejected => true
  | .fulfilled _ => false

/-- `seriesKeyMap.visits`. -/
def visitsKeys : List String := ["visits", "data"]

/-- `seriesKeyMap.bounceRate`. -/
def bounceRateKeys : List String := ["bounce_rate", "bounceRate", "data"]

/-- `seriesKeyMap.pagesPerVisit`. -/
def pagesPerVisitKeys : List String := ["pages_per_visit", "pagesPerVisit", "data"]

/-- `seriesKeyMap.avgDuration`. -/
def avgDurationKeys : List String := ["average_visit_duration", "avgDuration", "data"]

/-- Outcome of one series field: `none` when the call was rejected or when the
fulfilled payload fails to parse — both leave the field empty and append the
same note. -/
def seriesOutcome (r : Settled) (keys : List String) :
    Option (List TimeseriesPoint) :=
  match r with
  | .rejected => none
  | .fulfilled payload => parseSeries payload keys

/-- Outcome of the channel field. -/
def channelsOutcome (r : Settled) : Option (List ChannelShare) :=
  match r with
  | .rejected => none
  | .fulfilled payload => parseChannels payload

/-- `parsed.sort((a, b) => b.share - a.share)`: stable sort descending by
share (the comparator admits `a` before `b` iff `b.share - a.share ≤ 0`). -/
def sortChannels (cs : List ChannelShare) : List ChannelShare :=
  cs.mergeSort (fun a b => decide (b.share ≤ a.share))

/-- The `summary` block of an `InsightsData`. -/
structure InsightsSummary where
  latestVisits : Option ℚ
  latestBounceRate : Option ℚ
  latestPagesPerVisit : Option ℚ
  latestAvgDurationSeconds : Option ℚ

/-- The four `timeseries` collections of an `InsightsData`. -/
structure InsightsTimeseries where
  visits : List TimeseriesPoint
  bounceRate : List TimeseriesPoint
  pagesPerVisit : List TimeseriesPoint
  avgDuration : List TimeseriesPoint

/-- The coverage metadata block. -/
structure InsightsMeta where
  partialFlag : Bool
  notes : List String

/-- The aggregated result returned by `fetchSimilarwebInsights`. -/
structure InsightsData where
  summary : InsightsSummary
  timeseries : InsightsTimeseries
  channels : List ChannelShare
  meta : InsightsMeta

/-- The note text `` `${key} data unavailable.` ``. -/
def noteFor (field : String) : String := field ++ " data unavailable."

/-- The `results.forEach` fold of `fetchSimilarwebInsights` expressed as a
function of the five settled outcomes: each iteration touches only its own
field and appends notes in the fixed key order
`[visits, bounceRate, pagesPerVisit, avgDuration, channels]`. -/
def aggregateOutcomes (ov ob op oa : Option (List TimeseriesPoint))
    (oc : Option (List ChannelShare)) : InsightsData :=
  let visits := ov.getD []
  let bounceRate := ob.getD []
  let pagesPerVisit := op.getD []
  let avgDuration := oa.getD []
  let channels := match oc with
    | none => []
    | some cs => sortChannels cs
  let notes :=
    (if ov.isNone then [noteFor "visits"] else []) ++
    (if ob.isNone then [noteFor "bounceRate"] else []) ++
    (if op.isNone then [noteFor "pagesPerVisit"] else []) ++
    (if oa.isNone then [noteFor "avgDuration"] else []) ++
    (if oc.isNone then [noteFor "channels"] else [])
  { summary :=
      { latestVisits := latestValue visits
        latestBounceRate := latestValue bounceRate
        latestPagesPerVisit := latestValue pagesPerVisit
        latestAvgDurationSeconds := latestValue avgDuration }
    timeseries :=
      { visits := visits
        bounceRate := bounceRate
        pagesPerVisit := pagesPerVisit
        avgDuration := avgDuration }
    channels := channels
    meta :=
      { partialFlag :=
          decide (0 < notes.length) ||
            (visits.isEmpty && bounceRate.isEmpty && pagesPerVisit.isEmpty &&
              avgDuration.isEmpty && channels.isEmpty)
        notes := notes } }

/-- `fetchSimilarwebInsights`'s settle handling for five settled calls, in the
source's field order. -/
def aggregateSettled (rv rb rp ra rc : Settled) : InsightsData :=
  aggregateOutcomes (seriesOutcome rv visitsKeys)
    (seriesOutcome rb bounceRateKeys) (seriesOutcome rp pagesPerVisitKeys)
    (seriesOutcome ra avgDurationKeys) (channelsOutcome rc)

theorem seriesOutcome_rejected (keys : List String) :
    seriesOutcome .rejected keys = none := rfl

theorem channelsOutcome_rejected : channelsOutcome .rejected = none := rfl

/-- C3 (amended): the `partial` flag is true iff at least one note exists or
every collection (four timeseries and channels) is empty; and when exactly one
of the five calls fails while every fulfilled payload parses successfully, the
result is partial with exactly one note and the other four fields populated
normally from their parses. -/
theorem c3_partial_flag_amended :
    (∀ rv rb rp ra rc : Settled,
      ((aggregateSettled rv rb rp ra rc).meta.partialFlag = true ↔
        (aggregateSettled rv rb rp ra rc).meta.notes ≠ [] ∨
          ((aggregateSettled rv rb rp ra rc).timeseries.visits = [] ∧
            (aggregateSettled rv rb rp ra rc).timeseries.bounceRate = [] ∧
            (aggregateSettled rv rb rp ra rc).timeseries.pagesPerVisit = [] ∧
            (aggregateSettled rv rb rp ra rc).timeseries.avgDuration = [] ∧
            (aggregateSettled rv rb rp ra rc).channels = []))) ∧
    (∀ rv rb rp ra rc : Settled,
      [rv, rb, rp, ra, rc].countP (fun r => r.isRejected) = 1 →
      (rv.isRejected = false → (seriesOutcome rv visitsKeys).isSome = true) →
      (rb.isRejected = false → (seriesOutcome rb bounceRateKeys).isSome = true) →
      (rp.isRejected = false → (seriesOutcome rp pagesPerVisitKeys).isSome = true) →
      (ra.isRejected = false → (seriesOutcome ra avgDurationKeys).isSome = true) →
      (rc.isRejected = false → (channelsOutcome rc).isSome = true) →
      (aggregateSettled rv rb rp ra rc).meta.partialFlag = true ∧
      (aggregateSettled rv rb rp ra rc).meta.notes.length = 1 ∧
      (rv.isRejected = false → ∃ ps, seriesOutcome rv visitsKeys = some ps ∧
        (aggregateSettled rv rb rp ra rc).timeseries.visits = ps) ∧
      (rb.isRejected = false → ∃ ps, seriesOutcome rb bounceRateKeys = some ps ∧
        (aggregateSettled rv rb rp ra rc).timeseries.bounceRate = ps) ∧
      (rp.isRejected = false → ∃ ps, seriesOutcome rp pagesPerVisitKeys = some ps ∧
        (aggregateSettled rv rb rp ra rc).timeseries.pagesPerVisit = ps) ∧
      (ra.isRejected = false → ∃ ps, seriesOutcome ra avgDurationKeys = some ps ∧
        (aggregateSettled rv rb rp ra rc).timeseries.avgDuration = ps) ∧
      (rc.isRejected = false → ∃ cs, channelsOutcome rc = some cs ∧
        (aggregateSettled rv rb rp ra rc).channels = sortChannels cs)) := by
  have part1 : ∀ (ov ob op oa : Option (List TimeseriesPoint))
      (oc : Option (List ChannelShare)),
      ((aggregateOutcomes ov ob op oa oc).meta.partialFlag = true ↔
        (aggregateOutcomes ov ob op oa oc).meta.notes ≠ [] ∨
          ((aggregateOutcomes ov ob op oa oc).timeseries.visits = [] ∧
            (aggregateOutcomes ov ob op oa oc).timeseries.bounceRate = [] ∧
            (aggregateOutcomes ov ob op oa oc).timeseries.pagesPerVisit = [] ∧
            (aggregateOutcomes ov ob op oa oc).timeseries.avgDuration = [] ∧
            (aggregateOutcomes ov ob op oa oc).channels = [])) := by
    intro ov ob op oa oc
    rcases ov with _ | vs <;> rcases ob with _ | bs <;> rcases op with _ | ps2 <;>
      rcases oa with _ | as2 <;> rcases oc with _ | cs2 <;>
      simp [aggregateOutcomes, noteFor]
    tauto
  refine ⟨fun rv rb rp ra rc => part1 _ _ _ _ _, ?_⟩
  intro rv rb rp ra rc hcount h1 h2 h3 h4 h5
  cases rv <;> cases rb <;> cases rp <;> cases ra <;> cases rc <;>
    simp only [List.countP_cons, List.countP_nil, Settled.isRejected] at hcount <;>
    try simp at hcount
  · obtain ⟨bs, hbs⟩ := Option.isSome_iff_exists.mp (h2 rfl)
    obtain ⟨ps2, hps⟩ := Option.isSome_iff_exists.mp (h3 rfl)
    obtain ⟨as2, has⟩ := Option.isSome_iff_exists.mp (h4 rfl)
    obtain ⟨cs2, hcs⟩ := Option.isSome_iff_exists.mp (h5 rfl)
    refine ⟨?_, ?_, ?_, ?_, ?_, ?_, ?_⟩ <;>
      simp [aggregateSettled, aggregateOutcomes, seriesOutcome_rejected,
        channelsOutcome_rejected, Settled.isRejected, hbs, hps, has, hcs]
  · obtain ⟨vs, hvs⟩ := Option.isSome_iff_exists.mp (h1 rfl)
    obtain ⟨ps2, hps⟩ := Option.isSome_iff_exists.mp (h3 rfl)
    obtain ⟨as2, has⟩ := Option.isSome_iff_exists.mp (h4 rfl)
    obtain ⟨cs2, hcs⟩ := Option.isSome_iff_exists.mp (h5 rfl)
    refine ⟨?_, ?_, ?_, ?_, ?_, ?_, ?_⟩ <;>
      simp [aggregateSettled, aggregateOutcomes, seriesOutcome_rejected,
        channelsOutcome_rejected, Settled.isRejected, hvs, hps, has, hcs]
  · obtain ⟨vs, hvs⟩ := Option.isSome_iff_exists.mp (h1 rfl)
    obtain ⟨bs, hbs⟩ := Option.isSome_iff_exists.mp (h2 rfl)
    obtain ⟨as2, has⟩ := Option.isSome_iff_exists.mp (h4 rfl)
    obtain ⟨cs2, hcs⟩ := Option.isSome_iff_exists.mp (h5 rfl)
    refine ⟨?_, ?_, ?_, ?_, ?_, ?_, ?_⟩ <;>
      simp [aggregateSettled, aggregateOutcomes, seriesOutcome_rejected,
        channelsOutcome_rejected, Settled.isRejected, hvs, hbs, has, hcs]
  · obtain ⟨vs, hvs⟩ := Option.isSome_iff_exists.mp (h1 rfl)
    obtain ⟨bs, hbs⟩ := Option.isSome_iff_exists.mp (h2 rfl)
    obtain ⟨ps2, hps⟩ := Option.isSome_iff_exists.mp (h3 rfl)
    obtain ⟨cs2, hcs⟩ := Option.isSome_iff_exists.mp (h5 rfl)
    refine ⟨?_, ?_, ?_, ?_, ?_, ?_, ?_⟩ <;>
      simp [aggregateSettled, aggregateOutcomes, seriesOutcome_rejected,
        channelsOutcome_rejected, Settled.isRejected, hvs, hbs, hps, hcs]
  · obtain ⟨vs, hvs⟩ := Option.isSome_iff_exists.mp (h1 rfl)
    obtain ⟨bs, hbs⟩ := Option.isSome_iff_exists.mp (h2 rfl)
    obtain ⟨ps2, hps⟩ := Option.isSome_iff_exists.mp (h3 rfl)
    obtain ⟨as2, has⟩ := Option.isSome_iff_exists.mp (h4 rfl)
    refine ⟨?_, ?_, ?_, ?_, ?_, ?_, ?_⟩ <;>
      simp [aggregateSettled, aggregateOutcomes, seriesOutcome_rejected,
        channelsOutcome_rejected, Settled.isRejected, hvs, hbs, hps, has]

/-- A series payload that parses successfully under every key list (a direct
array of one dated point). -/
def sampleSeriesPayload : Json :=
  .arr [.obj [("date", .str "2024-01"), ("value", .num 1)]]

/-- A channel payload that `parseChannels` accepts (flat mapping shape). -/
def sampleChannelsPayload : Json := .obj [("direct", .num 1)]

/-- C3 counterexample: exactly one of the five provider calls fails (the
visits call is rejected), yet `notes` has length 2, because the fulfilled
bounce-rate payload is unparseable and adds a second note. -/
theorem c3_partial_flag_counterexample :
    [Settled.rejected, Settled.fulfilled .null,
        Settled.fulfilled sampleSeriesPayload,
        Settled.fulfilled sampleSeriesPayload,
        Settled.fulfilled sampleChannelsPayload].countP
      (fun r => r.isRejected) = 1 ∧
    (aggregateSettled Settled.rejected (Settled.fulfilled .null)
        (Settled.fulfilled sampleSeriesPayload)
        (Settled.fulfilled sampleSeriesPayload)
        (Settled.fulfilled sampleChannelsPayload)).meta.notes.length = 2 :=
  ⟨by decide, by decide⟩

/-- Witness for the amended C3: the visits call alone fails and the other
four payloads parse. -/
theorem c3_partial_flag_amended_witness :
    (aggregateSettled Settled.rejected
        (Settled.fulfilled sampleSeriesPayload)
        (Settled.fulfilled sampleSeriesPayload)
        (Settled.fulfilled sampleSeriesPayload)
        (Settled.fulfilled sampleChannelsPayload)).meta.partialFlag = true ∧
    (aggregateSettled Settled.rejected
        (Settled.fulfilled sampleSeriesPayload)
        (Settled.fulfilled sampleSeriesPayload)
        (Settled.fulfilled sampleSeriesPayload)
        (Settled.fulfilled sampleChannelsPayload)).meta.notes.length = 1 ∧
    (Settled.rejected.isRejected = false →
      ∃ ps, seriesOutcome Settled.rejected visitsKeys = some ps ∧
        (aggregateSettled Settled.rejected
          (Settled.fulfilled sampleSeriesPayload)
          (Settled.fulfilled sampleSeriesPayload)
          (Settled.fulfilled sampleSeriesPayload)
          (Settled.fulfilled sampleChannelsPayload)).timeseries.visits = ps) ∧
    ((Settled.fulfilled sampleSeriesPayload).isRejected = false →
      ∃ ps, seriesOutcome (Settled.fulfilled sampleSeriesPayload) bounceRateKeys = some ps ∧
        (aggregateSettled Settled.rejected
          (Settled.fulfilled sampleSeriesPayload)
          (Settled.fulfilled sampleSeriesPayload)
          (Settled.fulfilled sampleSeriesPayload)
          (Settled.fulfilled sampleChannelsPayload)).timeseries.bounceRate = ps) ∧
    ((Settled.fulfilled sampleSeriesPayload).isRejected = false →
      ∃ ps, seriesOutcome (Settled.fulfilled sampleSeriesPayload) pagesPerVisitKeys = some ps ∧
        (aggregateSettled Settled.rejected
          (Settled.fulfilled sampleSeriesPayload)
          (Settled.fulfilled sampleSeriesPayload)
          (Settled.fulfilled sampleSeriesPayload)
          (Settled.fulfilled sampleChannelsPayload)).timeseries.pagesPerVisit = ps) ∧
    ((Settled.fulfilled sampleSeriesPayload).isRejected = false →
      ∃ ps, seriesOutcome (Settled.fulfilled sampleSeriesPayload) avgDurationKeys = some ps ∧
        (aggregateSettled Settled.rejected
          (Settled.fulfilled sampleSeriesPayload)
          (Settled.fulfilled sampleSeriesPayload)
          (Settled.fulfilled sampleSeriesPayload)
          (Settled.fulfilled sampleChannelsPayload)).timeseries.avgDuration = ps) ∧
    ((Settled.fulfilled sampleChannelsPayload).isRejected = false →
      ∃ cs, channelsOutcome (Settled.fulfilled sampleChannelsPayload) = some cs ∧
        (aggregateSettled Settled.rejected
          (Settled.fulfilled sampleSeriesPayload)
          (Settled.fulfilled sampleSeriesPayload)
          (Settled.fulfilled sampleSeriesPayload)
          (Settled.fulfilled sampleChannelsPayload)).channels = sortChannels cs) :=
  c3_partial_flag_amended.2 Settled.rejected
    (Settled.fulfilled sampleSeriesPayload)
    (Settled.fulfilled sampleSeriesPayload)
    (Settled.fulfilled sampleSeriesPayload)
    (Settled.fulfilled sampleChannelsPayload)
    (by decide) (by decide) (by decide) (by decide) (by decide) (by decide)

/-! ### Domain normalization (src/lib/domain.ts) -/

/-- Whitespace removed by `String.prototype.trim` (the forms relevant here:
space, tab, LF, VT, FF, CR). -/
def isJSWhitespaceChar (c : Char) : Bool :=
  decide (c.toNat = 32 ∨ c.toNat = 9 ∨ c.toNat = 10 ∨ c.toNat = 11 ∨
    c.toNat = 12 ∨ c.toNat = 13)

/-- `input.trim()`. -/
def trimChars (s : List Char) : List Char :=
  ((s.dropWhile isJSWhitespaceChar).reverse.dropWhile isJSWhitespaceChar).reverse

/-- The scheme test `/^[a-z]+:\/\//i` (`Char.isAlpha` is exactly the ASCII
letters). -/
def hasScheme (s : List Char) : Bool :=
  !(s.takeWhile Char.isAlpha).isEmpty &&
    (s.dropWhile Char.isAlpha).take 3 == [':', '/', '/']

/-- The remainder of the input after the first `://`, if any. -/
def dropThroughSchemeSep : List Char → Option (List Char)
  | [] => none
  | c :: rest =>
    if c = ':' ∧ rest.take 2 = ['/', '/'] then some (rest.drop 2)
    else dropThroughSchemeSep rest

/-- Forbidden host code points (WHATWG): NUL, tab, LF, CR, space, `%`, `<`,
`>`, `[`, `\`, `]`, `^`, `|`. -/
def isForbiddenHostChar (c : Char) : Bool :=
  decide (c.toNat = 0 ∨ c.toNat = 9 ∨ c.toNat = 10 ∨ c.toNat = 13 ∨
    c.toNat = 32 ∨ c.toNat = 37 ∨ c.toNat = 60 ∨ c.toNat = 62 ∨
    c.toNat = 91 ∨ c.toNat = 92 ∨ c.toNat = 93 ∨ c.toNat = 94 ∨
    c.toNat = 124)

/-- Modelled from the WHATWG URL parser behind `new URL(withScheme).hostname`,
restricted to what this caller observes: the host is the authority section
after the first `://` up to the first `/`, `?` or `#`, with userinfo up to the
last `@` removed and a `:port` suffix dropped; parsing fails when the host is
empty or contains a forbidden host character. (The lowercasing and IDNA
mapping a real URL parser also performs are immaterial here: the caller
lowercases and punycode-encodes the hostname itself.) The authority is the
section up to the first `/`, `?` or `#`. -/
def urlAuthority (rest : List Char) : List Char :=
  rest.takeWhile fun c => decide (c ≠ '/' ∧ c ≠ '?' ∧ c ≠ '#')

/-- Userinfo removal: keep what follows the last `@` of the authority. -/
def urlDropUserinfo (authority : List Char) : List Char :=
  (authority.reverse.takeWhile fun c => decide (c ≠ '@')).reverse

/-- Port removal: keep what precedes the first `:`. -/
def urlDropPort (hostPort : List Char) : List Char :=
  hostPort.takeWhile fun c => decide (c ≠ ':')

def urlHostname (s : List Char) : Option (List Char) :=
  match dropThroughSchemeSep s with
  | none => none
  | some rest =>
    let host := urlDropPort (urlDropUserinfo (urlAuthority rest))
    if host.isEmpty || host.any isForbiddenHostChar then none else some host

/-- ASCII uppercase letter. -/
def isUpperAscii (c : Char) : Bool := decide (65 ≤ c.toNat ∧ c.toNat ≤ 90)

/-- `String.prototype.toLowerCase` on one character, restricted to ASCII
(non-ASCII case mapping is immaterial: every non-ASCII character is replaced
by the punycode stage before validation reads the result). -/
def toLowerChar (c : Char) : Char :=
  if isUpperAscii c then Char.ofNat (c.toNat + 32) else c

/-- `hostname.toLowerCase()`. -/
def toLowerChars (s : List Char) : List Char := s.map toLowerChar

/-- `normalized.replace(/^www\./, "")` (a non-global regex: one strip only). -/
def stripWWW (s : List Char) : List Char :=
  if s.take 4 = ['w', 'w', 'w', '.'] then s.drop 4 else s

/-- Whether the hostname begins with `www.`. -/
def startsWithWWW (s : List Char) : Bool := s.take 4 == ['w', 'w', 'w', '.']

/-- `normalized.replace(/\.$/, "")`. -/
def stripTrailingDot (s : List Char) : List Char :=
  if s.getLast? = some '.' then s.dropLast else s

/-- The fixed blocklist. -/
def blockedHostnames : List (List Char) :=
  ["localhost".toList, "local".toList, "internal".toList]

/-- `normalized.endsWith(".localhost")`. -/
def endsWithDotLocalhost (s : List Char) : Bool :=
  (".localhost".toList).isSuffixOf s

/-- Split on `.` (as a hostname parser does; `splitOnDot s` is never empty,
and a leading/trailing/double dot yields an empty part). -/
def splitOnDot : List Char → List (List Char)
  | [] => [[]]
  | c :: rest =>
    if c = '.' then [] :: splitOnDot rest
    else
      match splitOnDot rest with
      | [] => [[c]]
      | l :: ls => (c :: l) :: ls

/-- Inverse of `splitOnDot`: interleave the parts with dots. -/
def joinDots : List (List Char) → List Char
  | [] => []
  | [l] => l
  | l :: ls => l ++ '.' :: joinDots ls

/-- ASCII digit. -/
def isDigitChar (c : Char) : Bool := decide (48 ≤ c.toNat ∧ c.toNat ≤ 57)

/-- Decimal value of a digit string. -/
def octetValue (l : List Char) : ℕ :=
  l.foldl (fun acc c => acc * 10 + (c.toNat - 48)) 0

/-- One dotted-decimal octet as `net.isIPv4` accepts it: 1–3 digits, no
leading zero, value at most 255. -/
def isOctet (l : List Char) : Bool :=
  !l.isEmpty && decide (l.length ≤ 3) && l.all isDigitChar &&
    (l.head? != some '0' || l == ['0']) && decide (octetValue l ≤ 255)

/-- `net.isIPv4`: exactly four octets separated by dots. -/
def isIPv4 (s : List Char) : Bool :=
  match splitOnDot s with
  | [a, b, c, d] => isOctet a && isOctet b && isOctet c && isOctet d
  | _ => false

/-- Modelled from node's `net.isIP` (nonzero exactly on IP literals): an IPv6
literal necessarily contains `:`, which cannot survive URL host extraction,
so on this code path only the IPv4 shape is reachable. -/
def isIPAddress (s : List Char) : Bool := isIPv4 s

/-- `[a-z0-9-]` under `/i`: ASCII letter of either case, digit, or hyphen. -/
def isHostLabelChar (c : Char) : Bool :=
  decide ((97 ≤ c.toNat ∧ c.toNat ≤ 122) ∨ (65 ≤ c.toNat ∧ c.toNat ≤ 90) ∨
    (48 ≤ c.toNat ∧ c.toNat ≤ 57) ∨ c.toNat = 45)

/-- One label of `hostnameRegex`: 1–63 characters of `[a-z0-9-]`
(case-insensitive) with no leading or trailing hyphen. -/
def validLabel (l : List Char) : Bool :=
  !l.isEmpty && decide (l.length ≤ 63) && l.all isHostLabelChar &&
    l.head? != some '-' && l.getLast? != some '-'

/-- The `hostnameRegex` test: total length 1–253 and every dot-separated
label valid. -/
def hostnameRegexTest (s : List Char) : Bool :=
  decide (1 ≤ s.length) && decide (s.length ≤ 253) &&
    (splitOnDot s).all validLabel

/-- ASCII code point. -/
def isASCIIChar (c : Char) : Bool := decide (c.toNat < 128)

/-- Modelled from the punycode library's `toASCII` on one label: an all-ASCII
label passes through unchanged; a label containing non-ASCII characters is
replaced by an `xn--`-prefixed ASCII form. The precise encoding of the
non-ASCII part is immaterial to every claim here (what matters is that it is
dot-free, begins with `xn--`, and introduces no uppercase characters), so the
basic code points are kept and the encoded delta is elided. -/
def encLabel (l : List Char) : List Char :=
  if l.all isASCIIChar then l
  else 'x' :: 'n' :: '-' :: '-' :: l.filter isASCIIChar

/-- `punycode.toASCII`: encode each dot-separated label. -/
def punycodeToASCII (s : List Char) : List Char :=
  joinDots ((splitOnDot s).map encLabel)

/-- Result of `normalizeDomain`: `{ok: true, domain}` or `{ok: false, error}`. -/
inductive NormalizeResult where
  | ok (domain : List Char) : NormalizeResult
  | err (message : String) : NormalizeResult
deriving DecidableEq

/-- The validation tail of `normalizeDomain` applied to the extracted
hostname, with the source's `normalized` and `ascii` locals inlined
(`normalized` is the argument here; `ascii` is `punycodeToASCII normalized`). -/
def validateNormalized (normalized : List Char) : NormalizeResult :=
  if normalized.isEmpty then .err "Please enter a valid domain."
  else if blockedHostnames.contains normalized ||
      endsWithDotLocalhost normalized then
    .err "Localhost domains are not supported."
  else if isIPAddress normalized then
    .err "IP addresses are not supported."
  else if !hostnameRegexTest (punycodeToASCII normalized) ||
      !(punycodeToASCII normalized).contains '.' then
    .err "Please enter a public domain name."
  else .ok (punycodeToASCII normalized)

/-- `normalizeDomain` from `src/lib/domain.ts`. -/
def normalizeDomain (input : List Char) : NormalizeResult :=
  if (trimChars input).isEmpty then .err "Please enter a URL or domain."
  else
    match urlHostname (if hasScheme (trimChars input) then trimChars input
        else "https://".toList ++ trimChars input) with
    | none => .err "That doesn't look like a valid URL."
    | some hostname =>
      validateNormalized (stripTrailingDot (stripWWW (toLowerChars hostname)))

theorem splitOnDot_ne_nil (s : List Char) : splitOnDot s ≠ [] := by
  cases s with
  | nil => simp [splitOnDot]
  | cons c rest =>
    rw [splitOnDot]
    split
    · simp
    · split <;> simp

theorem joinDots_cons_cons (l l2 : List Char) (ls : List (List Char)) :
    joinDots (l :: l2 :: ls) = l ++ '.' :: joinDots (l2 :: ls) := rfl

theorem joinDots_splitOnDot (s : List Char) : joinDots (splitOnDot s) = s := by
  induction s with
  | nil => rfl
  | cons c rest ih =>
    rw [splitOnDot]
    by_cases hc : c = '.'
    · rw [if_pos hc]
      obtain ⟨l, ls, hls⟩ : ∃ l ls, splitOnDot rest = l :: ls := by
        cases h : splitOnDot rest with
        | nil => exact absurd h (splitOnDot_ne_nil rest)
        | cons l ls => exact ⟨l, ls, rfl⟩
      rw [hls]
      rw [hls] at ih
      rw [joinDots_cons_cons, List.nil_append, hc, ih]
    · rw [if_neg hc]
      cases h : splitOnDot rest with
      | nil => exact absurd h (splitOnDot_ne_nil rest)
      | cons l ls =>
        rw [h] at ih
        cases ls with
        | nil =>
          show c :: l = c :: rest
          rw [show joinDots [l] = l from rfl] at ih
          rw [ih]
        | cons l2 ls2 =>
          rw [joinDots_cons_cons, List.cons_append, ← joinDots_cons_cons, ih]

theorem not_dot_mem_splitOnDot {s : List Char} {l : List Char}
    (hl : l ∈ splitOnDot s) : ('.' : Char) ∉ l := by
  induction s generalizing l with
  | nil =>
    simp [splitOnDot] at hl
    simp [hl]
  | cons c rest ih =>
    rw [splitOnDot] at hl
    by_cases hc : c = '.'
    · rw [if_pos hc] at hl
      rcases List.mem_cons.mp hl with rfl | hl2
      · simp
      · exact ih hl2
    · rw [if_neg hc] at hl
      cases h : splitOnDot rest with
      | nil => exact absurd h (splitOnDot_ne_nil rest)
      | cons l0 ls =>
        rw [h] at hl
        rcases List.mem_cons.mp hl with rfl | hl2
        · intro hmem
          rcases List.mem_cons.mp hmem with h1 | h2
          · exact hc h1.symm
          · exact ih (h ▸ List.mem_cons_self l0 ls) h2
        · exact ih (h ▸ List.mem_cons_of_mem l0 hl2)

theorem mem_of_mem_splitOnDot {s l : List Char} {c : Char}
    (hl : l ∈ splitOnDot s) (hc : c ∈ l) : c ∈ s := by
  induction s generalizing l with
  | nil =>
    simp [splitOnDot] at hl
    rw [hl] at hc
    cases hc
  | cons d rest ih =>
    rw [splitOnDot] at hl
    by_cases hd : d = '.'
    · rw [if_pos hd] at hl
      rcases List.mem_cons.mp hl with rfl | hl2
      · cases hc
      · exact List.mem_cons_of_mem _ (ih hl2 hc)
    · rw [if_neg hd] at hl
      cases h : splitOnDot rest with
      | nil => exact absurd h (splitOnDot_ne_nil rest)
      | cons l0 ls =>
        rw [h] at hl
        rcases List.mem_cons.mp hl with rfl | hl2
        · rcases List.mem_cons.mp hc with rfl | hc2
          · exact List.mem_cons_self ..
          · exact List.mem_cons_of_mem _
              (ih (h ▸ List.mem_cons_self l0 ls) hc2)
        · exact List.mem_cons_of_mem _
            (ih (h ▸ List.mem_cons_of_mem l0 hl2) hc)

theorem mem_joinDots {ls : List (List Char)} {c : Char}
    (hc : c ∈ joinDots ls) : c = '.' ∨ ∃ l ∈ ls, c ∈ l := by
  induction ls with
  | nil => cases hc
  | cons l ls ih =>
    cases ls with
    | nil =>
      right
      exact ⟨l, List.mem_cons_self .., hc⟩
    | cons l2 ls2 =>
      rw [joinDots_cons_cons] at hc
      rcases List.mem_append.mp hc with h1 | h2
      · exact Or.inr ⟨l, List.mem_cons_self .., h1⟩
      · rcases List.mem_cons.mp h2 with rfl | h3
        · exact Or.inl rfl
        · rcases ih h3 with h4 | ⟨l0, hl0, hcl0⟩
          · exact Or.inl h4
          · exact Or.inr ⟨l0, List.mem_cons_of_mem _ hl0, hcl0⟩

theorem splitOnDot_dotfree {l : List Char} (h : ('.' : Char) ∉ l) :
    splitOnDot l = [l] := by
  induction l with
  | nil => rfl
  | cons c rest ih =>
    rw [splitOnDot, if_neg (by rintro rfl; exact h (List.mem_cons_self ..)),
      ih (fun hm => h (List.mem_cons_of_mem _ hm))]

theorem splitOnDot_append_dot {l t : List Char} (h : ('.' : Char) ∉ l) :
    splitOnDot (l ++ '.' :: t) = l :: splitOnDot t := by
  induction l with
  | nil =>
    rw [List.nil_append, splitOnDot, if_pos rfl]
  | cons c rest ih =>
    rw [List.cons_append, splitOnDot,
      if_neg (by rintro rfl; exact h (List.mem_cons_self ..)),
      ih (fun hm => h (List.mem_cons_of_mem _ hm))]

theorem splitOnDot_joinDots {ls : List (List Char)} (hne : ls ≠ [])
    (hdot : ∀ l ∈ ls, ('.' : Char) ∉ l) :
    splitOnDot (joinDots ls) = ls := by
  induction ls with
  | nil => exact absurd rfl hne
  | cons l ls ih =>
    cases ls with
    | nil => exact splitOnDot_dotfree (hdot l (List.mem_cons_self ..))
    | cons l2 ls2 =>
      rw [joinDots_cons_cons,
        splitOnDot_append_dot (hdot l (List.mem_cons_self ..)),
        ih (by simp) (fun l0 hl0 => hdot l0 (List.mem_cons_of_mem _ hl0))]

theorem getLast?_append_right {a b : List Char} (hb : b ≠ []) :
    (a ++ b).getLast? = b.getLast? := by
  rw [List.getLast?_append, List.getLast?_eq_getLast b hb, Option.or_some]

theorem getLast?_joinDots {ls : List (List Char)} {l : List Char}
    (hlast : ls.getLast? = some l) (hne : l ≠ []) :
    (joinDots ls).getLast? = l.getLast? := by
  induction ls with
  | nil => cases hlast
  | cons l0 ls ih =>
    cases ls with
    | nil =>
      rw [List.getLast?_singleton] at hlast
      cases hlast
      rfl
    | cons l2 ls2 =>
      rw [List.getLast?_cons_cons] at hlast
      rw [joinDots_cons_cons,
        getLast?_append_right (by simp),
        show ('.' :: joinDots (l2 :: ls2)) = ['.'] ++ joinDots (l2 :: ls2) from rfl,
        getLast?_append_right, ih hlast]
      intro hj
      have := ih hlast
      rw [hj] at this
      rw [List.getLast?_eq_getLast l hne] at this
      cases this

theorem suffix_of_suffix_length_le {l1 l2 l3 : List Char}
    (h1 : l1 <:+ l3) (h2 : l2 <:+ l3) (h : l1.length ≤ l2.length) :
    l1 <:+ l2 := by
  rw [← List.reverse_prefix] at h1 h2 ⊢
  exact List.prefix_of_prefix_length_le h1 h2 (by simpa using h)

theorem suffix_cons_drop {t l : List Char} {c : Char}
    (h : t <:+ (c :: l)) (hl : t.length ≤ l.length) : t <:+ l := by
  obtain ⟨u, hu⟩ := h
  cases u with
  | nil =>
    exfalso
    rw [List.nil_append] at hu
    rw [hu] at hl
    simp at hl
  | cons d u2 =>
    rw [List.cons_append] at hu
    injection hu with h1 h2
    exact ⟨u2, h2⟩

theorem suffix_joinDots_of_getLast {ls : List (List Char)} {w : List Char}
    (hlen : 2 ≤ ls.length) (hlast : ls.getLast? = some w) :
    ('.' :: w) <:+ joinDots ls := by
  induction ls with
  | nil => simp at hlen
  | cons l ls ih =>
    cases ls with
    | nil => simp at hlen
    | cons l2 ls2 =>
      rw [joinDots_cons_cons]
      rw [List.getLast?_cons_cons] at hlast
      cases ls2 with
      | nil =>
        rw [List.getLast?_singleton] at hlast
        cases hlast
        exact ⟨l, rfl⟩
      | cons l3 ls3 =>
        have hs := ih (by simp) hlast
        obtain ⟨u, hu⟩ := hs
        exact ⟨l ++ '.' :: u, by simp [← hu]⟩

theorem joinDots_getLast_of_suffix {ls : List (List Char)} {w : List Char}
    (hne : ls ≠ []) (hdot : ∀ l ∈ ls, ('.' : Char) ∉ l)
    (hw : ('.' : Char) ∉ w) (hsuf : ('.' :: w) <:+ joinDots ls) :
    ls.getLast? = some w ∧ 2 ≤ ls.length := by
  induction ls with
  | nil => exact absurd rfl hne
  | cons l ls ih =>
    cases ls with
    | nil =>
      exfalso
      exact hdot l (List.mem_cons_self ..)
        (hsuf.mem (List.mem_cons_self ..))
    | cons l2 ls2 =>
      rw [joinDots_cons_cons] at hsuf
      have hJsuf : ('.' :: joinDots (l2 :: ls2)) <:+
          (l ++ '.' :: joinDots (l2 :: ls2)) := ⟨l, rfl⟩
      by_cases hlen : w.length ≤ (joinDots (l2 :: ls2)).length
      · have hws : ('.' :: w) <:+ ('.' :: joinDots (l2 :: ls2)) :=
          suffix_of_suffix_length_le hsuf hJsuf (by simpa using hlen)
        rcases Nat.lt_or_ge w.length (joinDots (l2 :: ls2)).length with hlt | hge
        · have hws2 : ('.' :: w) <:+ joinDots (l2 :: ls2) :=
            suffix_cons_drop hws (by simpa using hlt)
          have := ih (by simp)
            (fun l0 hl0 => hdot l0 (List.mem_cons_of_mem _ hl0)) hws2
          exact ⟨by rw [List.getLast?_cons_cons]; exact this.1, by simp⟩
        · have heqc : ('.' :: w) = ('.' :: joinDots (l2 :: ls2)) :=
            hws.eq_of_length (by simp; omega)
          injection heqc with h1 heq
          cases ls2 with
          | nil =>
            refine ⟨?_, by simp⟩
            rw [List.getLast?_cons_cons, List.getLast?_singleton, heq]
            rfl
          | cons l3 ls3 =>
            exfalso
            apply hw
            rw [heq, joinDots_cons_cons]
            exact List.mem_append.mpr (Or.inr (List.mem_cons_self ..))
      · exfalso
        have hJw : ('.' :: joinDots (l2 :: ls2)) <:+ ('.' :: w) :=
          suffix_of_suffix_length_le hJsuf hsuf (by simp; omega)
        have : ('.' :: joinDots (l2 :: ls2)) <:+ w :=
          suffix_cons_drop hJw (by simp; omega)
        exact hw (this.mem (List.mem_cons_self ..))

theorem char_eq_of_toNat {a b : Char} (h : a.toNat = b.toNat) : a = b := by
  apply Char.ext
  apply UInt32.eq_of_toBitVec_eq
  exact BitVec.eq_of_toNat_eq h

theorem char_ne_of_toNat_ne {a b : Char} (h : a.toNat ≠ b.toNat) : a ≠ b :=
  fun he => h (he ▸ rfl)

theorem toNat_ofNat_small {n : ℕ} (h1 : n < 55296) : (Char.ofNat n).toNat = n := by
  rw [Char.ofNat, dif_pos (Or.inl h1)]
  rw [Char.ofNatAux]
  show (UInt32.mk (BitVec.ofNatLt n _)).toNat = n
  simp [UInt32.toNat]

theorem toLowerChar_nonupper (c : Char) : isUpperAscii (toLowerChar c) = false := by
  rw [toLowerChar]
  split
  · rename_i h
    rw [isUpperAscii, decide_eq_true_eq] at h
    rw [isUpperAscii, decide_eq_false_iff_not]
    rw [toNat_ofNat_small (by omega)]
    omega
  · rename_i h
    exact Bool.eq_false_iff.mpr (fun hh => h hh)

theorem toLowerChar_eq_self {c : Char} (h : isUpperAscii c = false) :
    toLowerChar c = c := by
  rw [toLowerChar, if_neg (by simp [h])]

theorem toLowerChars_nonupper (s : List Char) :
    ∀ c ∈ toLowerChars s, isUpperAscii c = false := by
  intro c hc
  rw [toLowerChars] at hc
  obtain ⟨d, _, rfl⟩ := List.mem_map.mp hc
  exact toLowerChar_nonupper d

theorem toLowerChars_eq_self {s : List Char}
    (h : ∀ c ∈ s, isUpperAscii c = false) : toLowerChars s = s := by
  rw [toLowerChars]
  exact (List.map_congr_left (fun c hc => toLowerChar_eq_self (h c hc))).trans
    (List.map_id _)

theorem dChar_props {c : Char} (h : isHostLabelChar c = true ∨ c = '.') :
    isJSWhitespaceChar c = false ∧ (c ≠ '/' ∧ c ≠ '?' ∧ c ≠ '#') ∧ c ≠ '@' ∧
    c ≠ ':' ∧ isForbiddenHostChar c = false ∧ isASCIIChar c = true := by
  rcases h with h | rfl
  · rw [isHostLabelChar, decide_eq_true_eq] at h
    refine ⟨?_, ⟨?_, ?_, ?_⟩, ?_, ?_, ?_, ?_⟩
    · rw [isJSWhitespaceChar, decide_eq_false_iff_not]
      omega
    · exact char_ne_of_toNat_ne (show c.toNat ≠ 47 by omega)
    · exact char_ne_of_toNat_ne (show c.toNat ≠ 63 by omega)
    · exact char_ne_of_toNat_ne (show c.toNat ≠ 35 by omega)
    · exact char_ne_of_toNat_ne (show c.toNat ≠ 64 by omega)
    · exact char_ne_of_toNat_ne (show c.toNat ≠ 58 by omega)
    · rw [isForbiddenHostChar, decide_eq_false_iff_not]
      omega
    · rw [isASCIIChar, decide_eq_true_eq]
      omega
  · exact ⟨by decide, ⟨by decide, by decide, by decide⟩, by decide, by decide,
      by decide, by decide⟩

theorem regexTest_labels {d : List Char} (h : hostnameRegexTest d = true) :
    ∀ l ∈ splitOnDot d, validLabel l = true := by
  rw [hostnameRegexTest, Bool.and_eq_true, Bool.and_eq_true] at h
  exact fun l hl => List.all_eq_true.mp h.2 l hl

theorem validLabel_parts {l : List Char} (h : validLabel l = true) :
    l ≠ [] ∧ (∀ c ∈ l, isHostLabelChar c = true) := by
  rw [validLabel] at h
  simp only [Bool.and_eq_true] at h
  exact ⟨by simpa using h.1.1.1.1,
    fun c hc => List.all_eq_true.mp h.1.1.2 c hc⟩

theorem regex_chars {d : List Char} (h : hostnameRegexTest d = true) :
    ∀ c ∈ d, isHostLabelChar c = true ∨ c = '.' := by
  intro c hc
  rw [← joinDots_splitOnDot d] at hc
  rcases mem_joinDots hc with rfl | ⟨l, hl, hcl⟩
  · right; rfl
  · exact Or.inl ((validLabel_parts (regexTest_labels h l hl)).2 c hcl)

theorem dropWhile_eq_self_of_not {p : Char → Bool} {s : List Char}
    (h : ∀ c ∈ s, p c = false) : s.dropWhile p = s := by
  cases s with
  | nil => rfl
  | cons c rest =>
    rw [List.dropWhile_cons, h c (List.mem_cons_self ..)]
    simp

theorem trimChars_eq_self {s : List Char}
    (h : ∀ c ∈ s, isJSWhitespaceChar c = false) : trimChars s = s := by
  rw [trimChars, dropWhile_eq_self_of_not h,
    dropWhile_eq_self_of_not (fun c hc => h c (by simpa using hc)),
    List.reverse_reverse]

theorem takeWhile_eq_self_of {p : Char → Bool} {s : List Char}
    (h : ∀ c ∈ s, p c = true) : s.takeWhile p = s :=
  List.takeWhile_eq_self_iff.mpr h

theorem hasScheme_has_colon {s : List Char} (h : hasScheme s = true) :
    (':' : Char) ∈ s := by
  rw [hasScheme, Bool.and_eq_true, beq_iff_eq] at h
  have hmem : (':' : Char) ∈ (s.dropWhile Char.isAlpha).take 3 := by
    rw [h.2]
    exact List.mem_cons_self ..
  exact (List.dropWhile_sublist _).subset (List.take_subset _ _ hmem)

theorem dropThroughSchemeSep_https (d : List Char) :
    dropThroughSchemeSep ("https://".toList ++ d) = some d := rfl

theorem urlHostname_plain {d : List Char} (hne : d ≠ [])
    (hchars : ∀ c ∈ d, isHostLabelChar c = true ∨ c = '.') :
    urlHostname ("https://".toList ++ d) = some d := by
  have hred : urlHostname ("https://".toList ++ d) =
      (if ((urlDropPort (urlDropUserinfo (urlAuthority d))).isEmpty ||
          (urlDropPort (urlDropUserinfo (urlAuthority d))).any isForbiddenHostChar) = true
        then none
        else some (urlDropPort (urlDropUserinfo (urlAuthority d)))) := by
    rw [urlHostname, dropThroughSchemeSep_https]
  rw [hred]
  have h1 : urlAuthority d = d :=
    takeWhile_eq_self_of (fun c hc => by
      rw [decide_eq_true_eq]
      exact (dChar_props (hchars c hc)).2.1)
  have h2 : urlDropUserinfo d = d := by
    rw [urlDropUserinfo,
      takeWhile_eq_self_of (fun c hc => by
        rw [decide_eq_true_eq]
        exact (dChar_props (hchars c (by simpa using hc))).2.2.1),
      List.reverse_reverse]
  have h3 : urlDropPort d = d :=
    takeWhile_eq_self_of (fun c hc => by
      rw [decide_eq_true_eq]
      exact (dChar_props (hchars c hc)).2.2.2.1)
  rw [h1, h2, h3]
  rw [if_neg]
  simp only [Bool.or_eq_true, not_or]
  refine ⟨by simpa using hne, ?_⟩
  intro hany
  obtain ⟨c, hc, hfc⟩ := List.any_eq_true.mp hany
  rw [(dChar_props (hchars c hc)).2.2.2.2.1] at hfc
  cases hfc

theorem stripWWW_eq_self {d : List Char} (h : startsWithWWW d = false) :
    stripWWW d = d := by
  rw [stripWWW, if_neg]
  rw [startsWithWWW] at h
  simpa using h

theorem stripTrailingDot_eq_self {d : List Char} (h : d.getLast? ≠ some '.') :
    stripTrailingDot d = d := by
  rw [stripTrailingDot, if_neg h]

theorem punycodeToASCII_ascii {d : List Char}
    (h : ∀ c ∈ d, isASCIIChar c = true) : punycodeToASCII d = d := by
  have hmap : ∀ l ∈ splitOnDot d, encLabel l = l := by
    intro l hl
    rw [encLabel, if_pos]
    rw [List.all_eq_true]
    exact fun c hc => h c (mem_of_mem_splitOnDot hl hc)
  rw [punycodeToASCII, (List.map_congr_left hmap).trans (List.map_id _),
    joinDots_splitOnDot]

theorem punycodeToASCII_nonupper {s : List Char}
    (h : ∀ c ∈ s, isUpperAscii c = false) :
    ∀ c ∈ punycodeToASCII s, isUpperAscii c = false := by
  intro c hc
  rw [punycodeToASCII] at hc
  rcases mem_joinDots hc with rfl | ⟨l, hl, hcl⟩
  · decide
  · obtain ⟨l0, hl0, rfl⟩ := List.mem_map.mp hl
    rw [encLabel] at hcl
    split at hcl
    · exact h c (mem_of_mem_splitOnDot hl0 hcl)
    · rcases List.mem_cons.mp hcl with rfl | h2
      · decide
      rcases List.mem_cons.mp h2 with rfl | h3
      · decide
      rcases List.mem_cons.mp h3 with rfl | h4
      · decide
      rcases List.mem_cons.mp h4 with rfl | h5
      · decide
      exact h c (mem_of_mem_splitOnDot hl0 (List.mem_of_mem_filter h5))

theorem regexTest_getLast_ne_dot {d : List Char}
    (h : hostnameRegexTest d = true) : d.getLast? ≠ some '.' := by
  obtain ⟨l, hl⟩ : ∃ l, (splitOnDot d).getLast? = some l := by
    cases hq : (splitOnDot d).getLast? with
    | none => exact absurd (List.getLast?_eq_none_iff.mp hq) (splitOnDot_ne_nil d)
    | some l => exact ⟨l, rfl⟩
  obtain ⟨hlne, hlchars⟩ :=
    validLabel_parts (regexTest_labels h l (List.mem_of_getLast?_eq_some hl))
  have hjoin := getLast?_joinDots hl hlne
  rw [joinDots_splitOnDot] at hjoin
  rw [hjoin]
  cases hg : l.getLast? with
  | none => simp
  | some c =>
    have hchar := hlchars c (List.mem_of_getLast?_eq_some hg)
    intro he
    injection he with he2
    rw [he2] at hchar
    exact absurd hchar (by decide)

theorem blocked_not_contains {d : List Char} (hdot : ('.' : Char) ∈ d) :
    blockedHostnames.contains d = false := by
  apply Bool.eq_false_iff.mpr
  intro hc
  have hmem : d ∈ blockedHostnames := by
    have := List.elem_iff.mp hc
    exact this
  rw [blockedHostnames] at hmem
  rcases List.mem_cons.mp hmem with rfl | hmem2
  · exact absurd hdot (by decide)
  rcases List.mem_cons.mp hmem2 with rfl | hmem3
  · exact absurd hdot (by decide)
  rcases List.mem_cons.mp hmem3 with rfl | hmem4
  · exact absurd hdot (by decide)
  cases hmem4

theorem encLabel_dotfree {l : List Char} (h : ('.' : Char) ∉ l) :
    ('.' : Char) ∉ encLabel l := by
  rw [encLabel]
  split
  · exact h
  · intro hc
    rcases List.mem_cons.mp hc with h1 | h2
    · exact absurd h1 (by decide)
    rcases List.mem_cons.mp h2 with h1 | h3
    · exact absurd h1 (by decide)
    rcases List.mem_cons.mp h3 with h1 | h4
    · exact absurd h1 (by decide)
    rcases List.mem_cons.mp h4 with h1 | h5
    · exact absurd h1 (by decide)
    exact h (List.mem_of_mem_filter h5)

theorem splitOnDot_punycode (s : List Char) :
    splitOnDot (punycodeToASCII s) = (splitOnDot s).map encLabel := by
  rw [punycodeToASCII]
  apply splitOnDot_joinDots
  · simpa using splitOnDot_ne_nil s
  · intro l hl
    obtain ⟨l0, hl0, rfl⟩ := List.mem_map.mp hl
    exact encLabel_dotfree (not_dot_mem_splitOnDot hl0)

theorem punycode_not_endsWith_localhost {s : List Char}
    (hloc : endsWithDotLocalhost s = false) :
    endsWithDotLocalhost (punycodeToASCII s) = false := by
  apply Bool.eq_false_iff.mpr
  intro hsuf
  rw [endsWithDotLocalhost, List.isSuffixOf_iff_suffix] at hsuf
  have hsuf2 : ('.' :: "localhost".toList) <:+ punycodeToASCII s := hsuf
  have hdotfree : ∀ l ∈ splitOnDot (punycodeToASCII s), ('.' : Char) ∉ l :=
    fun l hl => not_dot_mem_splitOnDot hl
  have hmain := joinDots_getLast_of_suffix (w := "localhost".toList)
    (splitOnDot_ne_nil _) hdotfree (by decide)
    (by rw [joinDots_splitOnDot]; exact hsuf2)
  obtain ⟨hlast, hlen⟩ := hmain
  rw [splitOnDot_punycode, List.getLast?_map] at hlast
  rw [splitOnDot_punycode, List.length_map] at hlen
  obtain ⟨ln, hln, henc⟩ : ∃ ln, (splitOnDot s).getLast? = some ln ∧
      encLabel ln = "localhost".toList := by
    cases hq : (splitOnDot s).getLast? with
    | none => rw [hq] at hlast; cases hlast
    | some ln =>
      rw [hq] at hlast
      exact ⟨ln, rfl, by injection hlast⟩
  have hlnl : ln = "localhost".toList := by
    rw [encLabel] at henc
    split at henc
    · exact henc
    · exfalso
      injection henc with h1 h2
      exact absurd h1 (by decide)
  have hsufn : ('.' :: "localhost".toList) <:+ s := by
    have := suffix_joinDots_of_getLast hlen (by rw [hln, hlnl])
    rwa [joinDots_splitOnDot] at this
  rw [endsWithDotLocalhost, Bool.eq_false_iff] at hloc
  exact hloc (List.isSuffixOf_iff_suffix.mpr hsufn)

theorem encLabel_of_octet {l : List Char} (h : isOctet (encLabel l) = true) :
    encLabel l = l := by
  by_cases hall : l.all isASCIIChar = true
  · rw [encLabel, if_pos hall]
  · exfalso
    rw [encLabel, if_neg hall] at h
    rw [isOctet] at h
    simp only [Bool.and_eq_true] at h
    have hdig := List.all_eq_true.mp h.1.1.2 'x' (List.mem_cons_self ..)
    exact absurd hdig (by decide)

theorem punycode_not_ipv4 {s : List Char} (hip : isIPv4 s = false) :
    isIPv4 (punycodeToASCII s) = false := by
  apply Bool.eq_false_iff.mpr
  intro h4
  rw [isIPv4, splitOnDot_punycode] at h4
  split at h4
  case h_2 => cases h4
  case h_1 a b c dd heq =>
    simp only [Bool.and_eq_true] at h4
    have hid : ∀ l ∈ splitOnDot s, encLabel l = l := by
      intro l hl
      have hmem : encLabel l ∈ [a, b, c, dd] := by
        rw [← heq]
        exact List.mem_map_of_mem _ hl
      apply encLabel_of_octet
      rcases List.mem_cons.mp hmem with he | h2
      · rw [he]; exact h4.1.1.1
      rcases List.mem_cons.mp h2 with he | h3
      · rw [he]; exact h4.1.1.2
      rcases List.mem_cons.mp h3 with he | h5
      · rw [he]; exact h4.1.2
      rcases List.mem_cons.mp h5 with he | h6
      · rw [he]; exact h4.2
      cases h6
    have hsplit_s : splitOnDot s = [a, b, c, dd] := by
      rw [← (List.map_congr_left hid).trans (List.map_id _), heq]
    have : isIPv4 s = true := by
      rw [isIPv4, hsplit_s]
      simp [h4.1.1.1, h4.1.1.2, h4.1.2, h4.2]
    rw [this] at hip
    cases hip

theorem validateNormalized_ok_inv {n2 d : List Char}
    (h : validateNormalized n2 = .ok d) :
    blockedHostnames.contains n2 = false ∧ endsWithDotLocalhost n2 = false ∧
    isIPAddress n2 = false ∧ d = punycodeToASCII n2 ∧
    hostnameRegexTest d = true ∧ d.contains '.' = true := by
  rw [validateNormalized] at h
  split at h
  · cases h
  · split at h
    · cases h
    · split at h
      · cases h
      · split at h
        · cases h
        · rename_i h1 h2 h3 h4
          injection h with hascii
          rw [Bool.or_eq_true, not_or] at h2 h4
          refine ⟨Bool.eq_false_iff.mpr h2.1, Bool.eq_false_iff.mpr h2.2,
            Bool.eq_false_iff.mpr h3, hascii.symm, ?_, ?_⟩
          · have h5 := h4.1
            rw [Bool.not_eq_true', Bool.not_eq_false] at h5
            rw [← hascii]
            exact h5
          · have h5 := h4.2
            rw [Bool.not_eq_true', Bool.not_eq_false] at h5
            rw [← hascii]
            exact h5

theorem normalizeDomain_ok_inv {x d : List Char}
    (h : normalizeDomain x = .ok d) :
    ∃ n2, (∀ c ∈ n2, isUpperAscii c = false) ∧
      validateNormalized n2 = .ok d := by
  rw [normalizeDomain] at h
  split at h
  · cases h
  · split at h
    · cases h
    · rename_i hostname heq
      refine ⟨stripTrailingDot (stripWWW (toLowerChars hostname)), ?_, h⟩
      intro c hc
      apply toLowerChars_nonupper hostname
      have h1 : c ∈ stripWWW (toLowerChars hostname) := by
        rw [stripTrailingDot] at hc
        split at hc
        · exact List.dropLast_subset _ hc
        · exact hc
      rw [stripWWW] at h1
      split at h1
      · exact List.drop_subset _ _ h1
      · exact h1

theorem normalizeDomain_fixed {n2 d : List Char}
    (hnu : ∀ c ∈ n2, isUpperAscii c = false)
    (hval : validateNormalized n2 = .ok d)
    (hwww : startsWithWWW d = false) :
    normalizeDomain d = .ok d := by
  obtain ⟨hbl2, hloc2, hip2, hd, hregex, hdot⟩ := validateNormalized_ok_inv hval
  have hchars := regex_chars hregex
  have hdotmem : ('.' : Char) ∈ d := List.elem_iff.mp hdot
  have hne : d ≠ [] := by
    rintro rfl
    cases hdotmem
  have hdE : d.isEmpty = false := List.isEmpty_eq_false.mpr hne
  have htrim : trimChars d = d :=
    trimChars_eq_self (fun c hc => (dChar_props (hchars c hc)).1)
  have hscheme : hasScheme d = false := by
    apply Bool.eq_false_iff.mpr
    intro hs
    exact (dChar_props (hchars ':' (hasScheme_has_colon hs))).2.2.2.1 rfl
  have hdnu : ∀ c ∈ d, isUpperAscii c = false := by
    rw [hd]
    exact punycodeToASCII_nonupper hnu
  have hlow : toLowerChars d = d := toLowerChars_eq_self hdnu
  have hsw : stripWWW d = d := stripWWW_eq_self hwww
  have hst : stripTrailingDot d = d :=
    stripTrailingDot_eq_self (regexTest_getLast_ne_dot hregex)
  have hbld : blockedHostnames.contains d = false := blocked_not_contains hdotmem
  have hlocd : endsWithDotLocalhost d = false := by
    rw [hd]
    exact punycode_not_endsWith_localhost hloc2
  have hipd : isIPAddress d = false := by
    rw [hd]
    exact punycode_not_ipv4 hip2
  have hpuny : punycodeToASCII d = d :=
    punycodeToASCII_ascii (fun c hc => (dChar_props (hchars c hc)).2.2.2.2.2)
  rw [normalizeDomain, htrim, hdE, if_neg (by simp), hscheme,
    if_neg (by simp)]
  rw [urlHostname_plain hne hchars]
  show validateNormalized (stripTrailingDot (stripWWW (toLowerChars d))) = .ok d
  rw [hlow, hsw, hst, validateNormalized, hpuny, hdE, if_neg (by simp),
    if_neg (by rw [hbld, hlocd]; simp), if_neg (by rw [hipd]; simp),
    if_neg (by rw [hregex, hdot]; simp)]

/-- C1 counterexample: normalization is not idempotent. Normalizing
`www.www.example.com` succeeds with domain `www.example.com`, but
re-normalizing that returned domain strips a second `www.` and yields the
different result `example.com`. -/
theorem c1_idempotent_counterexample :
    normalizeDomain "www.www.example.com".toList =
      .ok "www.example.com".toList ∧
    normalizeDomain "www.example.com".toList = .ok "example.com".toList ∧
    "www.example.com".toList ≠ "example.com".toList :=
  ⟨by decide, by decide, by decide⟩

/-- C1 (amended): for every input string on which `normalizeDomain` succeeds
with a returned domain that does not itself begin with `www.`, re-normalizing
the returned domain succeeds and yields an identical result. -/
theorem c1_renormalize_amended {x d : List Char}
    (h : normalizeDomain x = .ok d) (hw : startsWithWWW d = false) :
    normalizeDomain d = .ok d ∧ normalizeDomain d = normalizeDomain x := by
  obtain ⟨n2, hnu, hval⟩ := normalizeDomain_ok_inv h
  have hfix := normalizeDomain_fixed hnu hval hw
  exact ⟨hfix, by rw [hfix, h]⟩

/-- Witness for the amended C1. -/
theorem c1_renormalize_amended_witness :
    normalizeDomain "example.com".toList = .ok "example.com".toList ∧
    normalizeDomain "example.com".toList =
      normalizeDomain "https://www.Example.com/path".toList :=
  c1_renormalize_amended (by decide) (by decide)
